import Mathlib

/-!
A verification development for the core event-sourced order-book engine of the
market-data-engine repository: the value domain, the four event kinds, the
`OrderBook` aggregate with its `apply` overloads, the `OrderBookService`
projection engine, the in-memory repository, and the columnar (parquet)
repository's buffered write path, skip-scan read path and snapshot I/O.

Modelling conventions.
* C++ `double` fields (prices, sizes, tick sizes) are modelled as exact
  rationals (`Rat`).  The engine performs no arithmetic on stored prices other
  than comparison and equality, and upstream prices are tick-aligned decimals,
  so `Rat` models the stored doubles exactly.
* `uint64_t` sequence numbers are modelled as `Nat`.  The service counter
  starts at 1 and increments once per event, so `Nat` and `uint64_t` agree on
  every execution of fewer than 2^64 events; no claim here exercises wrap.
* `int64_t` millisecond timestamps are modelled as `Int` (the `Timestamp`
  constructor rejects negatives; no claim depends on that bound).
* `std::sort` with a strict comparator is modelled by the deterministic
  `List.insertionSort` of the corresponding non-strict relation.  The two agree
  up to the (unspecified in C++) relative order of equal-key elements; every
  theorem below that pins down the exact output of such a sort assumes the
  keys pairwise distinct, where all comparison sorts produce the same list, so
  no theorem depends on the tie order.
-/

namespace MDE

/-- Side enum; wire encoding is u8 with BUY = 0, SELL = 1. -/
inductive Side where
  | BUY
  | SELL
deriving DecidableEq, Repr

/-- Wire encoding of a side: static_cast of the enum to u8. -/
def sideToU8 : Side → Nat
  | .BUY => 0
  | .SELL => 1

/-- Decoding a persisted side column: static_cast of the u8 back to the enum
(the writer only ever produces 0 or 1). -/
def sideOfU8 (n : Nat) : Side :=
  if n = 0 then .BUY else .SELL

/-- A price level: (Price, Quantity); both doubles in C++, modelled as `Rat`. -/
structure PriceLevel where
  price : Rat
  size : Rat
deriving DecidableEq, Repr

/-- A market asset: (condition_id, token_id), both non-empty strings. -/
structure MarketAsset where
  condition_id : String
  token_id : String
deriving DecidableEq, Repr

/-- TradeEvent: common header (asset, timestamp, sequence_number) plus trade
fields. -/
structure TradeEvent where
  asset : MarketAsset
  timestamp : Int
  sequence_number : Nat
  price : Rat
  size : Rat
  side : Side
  fee_rate_bps : String
deriving DecidableEq, Repr

/-- BookSnapshot event: header plus full bid/ask level lists and an opaque
upstream hash. -/
structure BookSnapshot where
  asset : MarketAsset
  timestamp : Int
  sequence_number : Nat
  bids : List PriceLevel
  asks : List PriceLevel
  hash : String
deriving DecidableEq, Repr

/-- One change inside a BookDelta. -/
structure PriceLevelDelta where
  asset_id : String
  price : Rat
  new_size : Rat
  side : Side
  best_bid : Rat
  best_ask : Rat
deriving DecidableEq, Repr

/-- BookDelta event: header plus a list of level changes. -/
structure BookDelta where
  asset : MarketAsset
  timestamp : Int
  sequence_number : Nat
  changes : List PriceLevelDelta
deriving DecidableEq, Repr

/-- TickSizeChange event: header plus old and new tick sizes. -/
structure TickSizeChange where
  asset : MarketAsset
  timestamp : Int
  sequence_number : Nat
  old_tick_size : Rat
  new_tick_size : Rat
deriving DecidableEq, Repr

/-- OrderBookEventVariant = std::variant over the four closed event kinds. -/
inductive OrderBookEventVariant where
  | snap (e : BookSnapshot)
  | delta (e : BookDelta)
  | trade (e : TradeEvent)
  | tick (e : TickSizeChange)
deriving DecidableEq, Repr

abbrev Ev := OrderBookEventVariant

/-- Visitor extracting the common asset field. -/
def eventAsset : Ev → MarketAsset
  | .snap e => e.asset
  | .delta e => e.asset
  | .trade e => e.asset
  | .tick e => e.asset

/-- Visitor extracting the common sequence_number field. -/
def eventSeq : Ev → Nat
  | .snap e => e.sequence_number
  | .delta e => e.sequence_number
  | .trade e => e.sequence_number
  | .tick e => e.sequence_number

/-- Visitor extracting the common timestamp field (milliseconds). -/
def eventTs : Ev → Int
  | .snap e => e.timestamp
  | .delta e => e.timestamp
  | .trade e => e.timestamp
  | .tick e => e.timestamp

/-- Visitor overwriting the common sequence_number field
(`e.sequence_number = n` inside `std::visit` in `on_event`). -/
def setSeq : Ev → Nat → Ev
  | .snap e, n => .snap { e with sequence_number := n }
  | .delta e, n => .delta { e with sequence_number := n }
  | .trade e, n => .trade { e with sequence_number := n }
  | .tick e, n => .tick { e with sequence_number := n }

/-- The OrderBook aggregate (fields of `mde::domain::OrderBook`). -/
structure OrderBook where
  asset : MarketAsset
  bids : List PriceLevel
  asks : List PriceLevel
  latest_trade : Option TradeEvent
  tick_size : Rat
  timestamp : Int
  last_sequence_number : Nat
  book_hash : String
deriving DecidableEq, Repr

/-- OrderBook::empty — default tick 0.01, empty sides, no trade, sequence 0,
timestamp 0, empty hash. -/
def OrderBook.empty (asset : MarketAsset) : OrderBook :=
  { asset := asset, bids := [], asks := [], latest_trade := none,
    tick_size := mkRat 1 100, timestamp := 0, last_sequence_number := 0,
    book_hash := "" }

/-- Bid ordering relation: the non-strict companion of the strict comparator
`a.price() > b.price()` passed to std::sort for bids (descending). -/
def bidLe (a b : PriceLevel) : Prop := b.price ≤ a.price

/-- Ask ordering relation: the non-strict companion of the strict comparator
`a.price() < b.price()` passed to std::sort for asks (ascending). -/
def askLe (a b : PriceLevel) : Prop := a.price ≤ b.price

instance : DecidableRel bidLe := fun a b => inferInstanceAs (Decidable (b.price ≤ a.price))

instance : DecidableRel askLe := fun a b => inferInstanceAs (Decidable (a.price ≤ b.price))

instance : IsTotal PriceLevel bidLe := ⟨fun a b => le_total b.price a.price⟩

instance : IsTrans PriceLevel bidLe := ⟨fun _ _ _ h h' => le_trans h' h⟩

instance : IsTotal PriceLevel askLe := ⟨fun a b => le_total a.price b.price⟩

instance : IsTrans PriceLevel askLe := ⟨fun _ _ _ h h' => le_trans h h'⟩

/-- std::sort of bid levels descending by price.  The source leaves the order
of equal-price levels unspecified, so theorems state the exact output of this
sort only for inputs with pairwise-distinct prices. -/
def sortBids (l : List PriceLevel) : List PriceLevel := l.insertionSort bidLe

/-- std::sort of ask levels ascending by price.  Same tie caveat as
`sortBids`: exact-output facts are only claimed for distinct-price inputs. -/
def sortAsks (l : List PriceLevel) : List PriceLevel := l.insertionSort askLe

/-- OrderBook::apply(const BookSnapshot&): replace both sides with the
snapshot's levels, re-sorted; preserve latest_trade and tick_size; take
timestamp, sequence and hash from the event. -/
def OrderBook.applySnap (b : OrderBook) (e : BookSnapshot) : OrderBook :=
  { asset := b.asset, bids := sortBids e.bids, asks := sortAsks e.asks,
    latest_trade := b.latest_trade, tick_size := b.tick_size,
    timestamp := e.timestamp, last_sequence_number := e.sequence_number,
    book_hash := e.hash }

/-- The `*it = PriceLevel(price, new_size)` branch of update_levels: replace
the first level whose price equals `p` (std::find_if finds the first match). -/
def replaceFirstLevel : List PriceLevel → Rat → Rat → List PriceLevel
  | [], _, _ => []
  | l :: ls, p, s => if l.price = p then ⟨p, s⟩ :: ls else l :: replaceFirstLevel ls p s

/-- The std::lower_bound insertion branch of update_levels: insert the new
level before the first element `l` with `¬ comp l.price p`.  (std::lower_bound
requires the range to be partitioned by the comparator; every book side the
engine produces is, and on partitioned input binary search and this linear
scan return the same position.) -/
def insertLower (comp : Rat → Rat → Bool) (p s : Rat) : List PriceLevel → List PriceLevel
  | [] => [⟨p, s⟩]
  | l :: ls => if comp l.price p then l :: insertLower comp p s ls else ⟨p, s⟩ :: l :: ls

/-- update_levels — update a price-level vector with one change.  Find the
first level at exactly this price; if new_size == 0 erase it when present,
else replace it when present, else insert in comparator position.  `comp` is
the strict price comparator (greater for bids, less for asks). -/
def update_levels (levels : List PriceLevel) (price new_size : Rat)
    (comp : Rat → Rat → Bool) : List PriceLevel :=
  if new_size = 0 then
    levels.eraseP (fun l => decide (l.price = price))
  else if levels.any (fun l => decide (l.price = price)) then
    replaceFirstLevel levels price new_size
  else
    insertLower comp price new_size levels

/-- One iteration of the change loop in OrderBook::apply(const BookDelta&):
BUY changes update bids with std::greater, SELL changes update asks with
std::less. -/
def applyChange (sides : List PriceLevel × List PriceLevel) (c : PriceLevelDelta) :
    List PriceLevel × List PriceLevel :=
  match c.side with
  | .BUY => (update_levels sides.1 c.price c.new_size (fun x y => decide (y < x)), sides.2)
  | .SELL => (sides.1, update_levels sides.2 c.price c.new_size (fun x y => decide (x < y)))

/-- OrderBook::apply(const BookDelta&): fold the changes over the current
sides; preserve latest_trade, tick_size, book_hash; take timestamp and
sequence from the event. -/
def OrderBook.applyDelta (b : OrderBook) (e : BookDelta) : OrderBook :=
  let sides := e.changes.foldl applyChange (b.bids, b.asks)
  { asset := b.asset, bids := sides.1, asks := sides.2,
    latest_trade := b.latest_trade, tick_size := b.tick_size,
    timestamp := e.timestamp, last_sequence_number := e.sequence_number,
    book_hash := b.book_hash }

/-- OrderBook::apply(const TradeEvent&): record the trade; sides, tick and
hash untouched. -/
def OrderBook.applyTrade (b : OrderBook) (e : TradeEvent) : OrderBook :=
  { asset := b.asset, bids := b.bids, asks := b.asks,
    latest_trade := some e, tick_size := b.tick_size,
    timestamp := e.timestamp, last_sequence_number := e.sequence_number,
    book_hash := b.book_hash }

/-- OrderBook::apply(const TickSizeChange&): set the tick size; sides, trade
and hash untouched. -/
def OrderBook.applyTick (b : OrderBook) (e : TickSizeChange) : OrderBook :=
  { asset := b.asset, bids := b.bids, asks := b.asks,
    latest_trade := b.latest_trade, tick_size := e.new_tick_size,
    timestamp := e.timestamp, last_sequence_number := e.sequence_number,
    book_hash := b.book_hash }

/-- OrderBook::apply(const OrderBookEventVariant&): std::visit dispatch. -/
def OrderBook.apply (b : OrderBook) : Ev → OrderBook
  | .snap e => b.applySnap e
  | .delta e => b.applyDelta e
  | .trade e => b.applyTrade e
  | .tick e => b.applyTick e

/-- Folding a list of events into a book, the reachable-state generator of
the property claims. -/
def foldEvents (a : MarketAsset) (es : List Ev) : OrderBook :=
  es.foldl OrderBook.apply (OrderBook.empty a)

/-! ### Projection map and service

The service's `std::map<MarketAsset, OrderBook>` is modelled as an association
list; only `find` / `insert_or_assign`-style access is exercised by the claims
(iteration order matters only for `resolve_asset`, which no claim touches). -/

/-- std::map::find on the association-list model. -/
def mapFind? (m : List (MarketAsset × OrderBook)) (a : MarketAsset) : Option OrderBook :=
  (m.find? (fun p => decide (p.1 = a))).map (·.2)

/-- Assign through an existing entry, or emplace a fresh one. -/
def mapInsert (m : List (MarketAsset × OrderBook)) (a : MarketAsset) (bk : OrderBook) :
    List (MarketAsset × OrderBook) :=
  if m.any (fun p => decide (p.1 = a)) then
    m.map (fun p => if p.1 = a then (a, bk) else p)
  else
    m ++ [(a, bk)]

/-- OrderBookService state together with its (in-memory) repository: the
append log `repoEvents` and the snapshot map `snapshots` model the
`InMemoryOrderBookRepository` the unit tests bind the service to, and
`snapLog` records each `store_snapshot` invocation in call order (pure
instrumentation used to state the snapshot-policy claims). -/
structure ServiceState where
  repoEvents : List Ev
  snapshots : List (MarketAsset × OrderBook)
  snapLog : List OrderBook
  books : List (MarketAsset × OrderBook)
  snapshot_interval : Nat
  nextSeq : Nat
deriving DecidableEq, Repr

/-- A freshly constructed service bound to an empty repository:
`next_sequence_number_{1}`. -/
def freshService (interval : Nat) : ServiceState :=
  { repoEvents := [], snapshots := [], snapLog := [], books := [],
    snapshot_interval := interval, nextSeq := 1 }

/-- OrderBookService::maybe_snapshot — when the interval is positive and
divides the sequence number, look the asset's book up again and store it. -/
def maybe_snapshot (s : ServiceState) (a : MarketAsset) (k : Nat) : ServiceState :=
  if s.snapshot_interval > 0 ∧ k % s.snapshot_interval = 0 then
    match mapFind? s.books a with
    | some bk => { s with snapLog := s.snapLog ++ [bk],
                          snapshots := mapInsert s.snapshots a bk }
    | none => s
  else s

/-- OrderBookService::on_event — assign the next global sequence number
(post-increment), persist the renumbered event, fold it into the asset's
projection (lazily created from OrderBook::empty), then run the snapshot
policy on the post-apply book's sequence number. -/
def on_event (s : ServiceState) (e : Ev) : ServiceState :=
  let numbered := setSeq e s.nextSeq
  let a := eventAsset numbered
  let s1 : ServiceState := { s with nextSeq := s.nextSeq + 1,
                                    repoEvents := s.repoEvents ++ [numbered] }
  let before := (mapFind? s1.books a).getD (OrderBook.empty a)
  let after := before.apply numbered
  let s2 : ServiceState := { s1 with books := mapInsert s1.books a after }
  maybe_snapshot s2 a after.last_sequence_number

/-- Feeding a whole event stream through the service callback. -/
def runService (s : ServiceState) (es : List Ev) : ServiceState :=
  es.foldl on_event s

/-- OrderBookService::event_count() = next_sequence_number - 1. -/
def eventCount (s : ServiceState) : Nat := s.nextSeq - 1

/-- The observable state of `on_event` when `repository.append_event` throws:
the sequence counter was already post-incremented inside the `std::visit`
before the append, the exception then propagates out of `on_event`, so the
repository log, the projection map and the snapshot stores are all left as
they were. -/
def on_event_throwing (s : ServiceState) (_e : Ev) : ServiceState :=
  { s with nextSeq := s.nextSeq + 1 }

/-! ### In-memory repository (stand-alone, as bound in tests) -/

/-- InMemoryOrderBookRepository: a vector of events plus a snapshot map. -/
structure InMemoryRepo where
  events : List Ev
  snapshots : List (MarketAsset × OrderBook)
deriving DecidableEq, Repr

/-- append_event — push_back. -/
def InMemoryRepo.append_event (r : InMemoryRepo) (e : Ev) : InMemoryRepo :=
  { r with events := r.events ++ [e] }

/-- get_events_since — keep events with this asset and strictly larger
sequence, in append order. -/
def InMemoryRepo.get_events_since (r : InMemoryRepo) (a : MarketAsset) (n : Nat) : List Ev :=
  r.events.filter (fun e => decide (eventAsset e = a) && decide (eventSeq e > n))

/-- store_snapshot — insert_or_assign keyed by the book's asset. -/
def InMemoryRepo.store_snapshot (r : InMemoryRepo) (b : OrderBook) : InMemoryRepo :=
  { r with snapshots := mapInsert r.snapshots b.asset b }

/-- get_latest_snapshot — map lookup. -/
def InMemoryRepo.get_latest_snapshot (r : InMemoryRepo) (a : MarketAsset) : Option OrderBook :=
  mapFind? r.snapshots a

/-! ### Columnar (parquet) repository

Files are modelled structurally.  A file's path components that the read path
never inspects (the `YYYY-MM-DD` date directory and the `HH` hour in the file
name: listing is recursive under `events/<type>/<bucket>/` and the filename
parse only extracts the trailing `seq_end`) are carried as the underlying
integers; their `put_time` string rendering is not modelled.  Parsing
`seq_end` back out of a filename the writer produced always succeeds and
returns the written value (the name ends in `_<decimal digits>.parquet`), so
the skip-scan test reads the `seq_end` field directly. -/

/-- The four event-type shards (the `events/<event_type>/` path component). -/
inductive EvType where
  | book_snapshot
  | book_delta
  | trade_event
  | tick_size_change
deriving DecidableEq, Repr

/-- token_prefix — first 8 characters of the token id (whole id if shorter),
the per-asset partition bucket of the events tree.  (substr(0, 8) on the
ASCII token ids; written over the character list, which is the same
function.) -/
def tokenBucket (token_id : String) : String := ⟨token_id.data.take 8⟩

/-- token_hash — first 16 characters of the token id, the snapshot file key. -/
def tokenHash16 (token_id : String) : String := ⟨token_id.data.take 16⟩

/-- One row of a `book_snapshot` event file (§ shared columns then hash and
four parallel double lists). -/
structure SnapEventRow where
  condition_id : String
  token_id : String
  timestamp_ms : Int
  sequence_number : Nat
  hash : String
  bid_prices : List Rat
  bid_sizes : List Rat
  ask_prices : List Rat
  ask_sizes : List Rat
deriving DecidableEq, Repr

/-- One row of a `book_delta` event file (shared columns then six parallel
lists; sides stored as u8). -/
structure DeltaEventRow where
  condition_id : String
  token_id : String
  timestamp_ms : Int
  sequence_number : Nat
  change_asset_ids : List String
  change_prices : List Rat
  change_new_sizes : List Rat
  change_sides : List Nat
  change_best_bids : List Rat
  change_best_asks : List Rat
deriving DecidableEq, Repr

/-- One row of a `trade_event` file. -/
structure TradeEventRow where
  condition_id : String
  token_id : String
  timestamp_ms : Int
  sequence_number : Nat
  price : Rat
  size : Rat
  side : Nat
  fee_rate_bps : String
deriving DecidableEq, Repr

/-- One row of a `tick_size_change` file. -/
structure TickEventRow where
  condition_id : String
  token_id : String
  timestamp_ms : Int
  sequence_number : Nat
  old_tick_size : Rat
  new_tick_size : Rat
deriving DecidableEq, Repr

/-- A serialized event row; the constructor mirrors the schema the writer
used, which always matches the file's event-type directory. -/
inductive EventRow where
  | snap (r : SnapEventRow)
  | delta (r : DeltaEventRow)
  | trade (r : TradeEventRow)
  | tick (r : TickEventRow)
deriving DecidableEq, Repr

/-- Columnar serialization of one event, per the write_* helpers. -/
def serializeRow : Ev → EventRow
  | .snap e => .snap
      { condition_id := e.asset.condition_id, token_id := e.asset.token_id,
        timestamp_ms := e.timestamp, sequence_number := e.sequence_number,
        hash := e.hash,
        bid_prices := e.bids.map (·.price), bid_sizes := e.bids.map (·.size),
        ask_prices := e.asks.map (·.price), ask_sizes := e.asks.map (·.size) }
  | .delta e => .delta
      { condition_id := e.asset.condition_id, token_id := e.asset.token_id,
        timestamp_ms := e.timestamp, sequence_number := e.sequence_number,
        change_asset_ids := e.changes.map (·.asset_id),
        change_prices := e.changes.map (·.price),
        change_new_sizes := e.changes.map (·.new_size),
        change_sides := e.changes.map (fun c => sideToU8 c.side),
        change_best_bids := e.changes.map (·.best_bid),
        change_best_asks := e.changes.map (·.best_ask) }
  | .trade e => .trade
      { condition_id := e.asset.condition_id, token_id := e.asset.token_id,
        timestamp_ms := e.timestamp, sequence_number := e.sequence_number,
        price := e.price, size := e.size, side := sideToU8 e.side,
        fee_rate_bps := e.fee_rate_bps }
  | .tick e => .tick
      { condition_id := e.asset.condition_id, token_id := e.asset.token_id,
        timestamp_ms := e.timestamp, sequence_number := e.sequence_number,
        old_tick_size := e.old_tick_size, new_tick_size := e.new_tick_size }

/-- Positional pairing of a price column with a size column back into levels. -/
def zipLevels : List Rat → List Rat → List PriceLevel
  | p :: ps, s :: ss => ⟨p, s⟩ :: zipLevels ps ss
  | _, _ => []

/-- Positional reassembly of the six delta columns into changes. -/
def zipChanges : List String → List Rat → List Rat → List Nat → List Rat → List Rat →
    List PriceLevelDelta
  | a :: as_, p :: ps, n :: ns, sd :: sds, bb :: bbs, ba :: bas =>
      ⟨a, p, n, sideOfU8 sd, bb, ba⟩ :: zipChanges as_ ps ns sds bbs bas
  | _, _, _, _, _, _ => []

/-- Reconstruction of an event variant from its row, per the read loop of
read_events_from_directory.  The read loop picks the decode branch from the
file's event-type directory; files only ever come from flush_buffer, where
the directory type and the rows' schema always agree, so the branch is
recovered here from the row's constructor. -/
def deserializeRow : EventRow → Ev
  | .snap r => .snap
      { asset := ⟨r.condition_id, r.token_id⟩, timestamp := r.timestamp_ms,
        sequence_number := r.sequence_number,
        bids := zipLevels r.bid_prices r.bid_sizes,
        asks := zipLevels r.ask_prices r.ask_sizes, hash := r.hash }
  | .delta r => .delta
      { asset := ⟨r.condition_id, r.token_id⟩, timestamp := r.timestamp_ms,
        sequence_number := r.sequence_number,
        changes := zipChanges r.change_asset_ids r.change_prices
          r.change_new_sizes r.change_sides r.change_best_bids r.change_best_asks }
  | .trade r => .trade
      { asset := ⟨r.condition_id, r.token_id⟩, timestamp := r.timestamp_ms,
        sequence_number := r.sequence_number,
        price := r.price, size := r.size, side := sideOfU8 r.side,
        fee_rate_bps := r.fee_rate_bps }
  | .tick r => .tick
      { asset := ⟨r.condition_id, r.token_id⟩, timestamp := r.timestamp_ms,
        sequence_number := r.sequence_number,
        old_tick_size := r.old_tick_size, new_tick_size := r.new_tick_size }

/-- One flushed event file: its shard, its partition bucket and date/hour
placement (from the first buffered event), the sequence range encoded in its
name, and its rows. -/
structure EventFile where
  etype : EvType
  bucket : String
  day : Int
  hour : Int
  seq_start : Nat
  seq_end : Nat
  rows : List EventRow
deriving DecidableEq, Repr

/-- The single-row snapshot file (§6.2.7, 16 columns). -/
structure SnapshotRow where
  condition_id : String
  token_id : String
  timestamp_ms : Int
  sequence_number : Nat
  tick_size : Rat
  book_hash : String
  bid_prices : List Rat
  bid_sizes : List Rat
  ask_prices : List Rat
  ask_sizes : List Rat
  trade_price : Rat
  trade_size : Rat
  trade_side : Nat
  trade_fee_rate_bps : String
  trade_timestamp_ms : Int
  has_trade : Bool
deriving DecidableEq, Repr

/-- ParquetOrderBookRepository state: flushed event files in creation order,
snapshot files keyed by `snapshots/<token_hash>.parquet`, the four per-type
buffers, and the configured write_buffer_size.  (The unused
min/max_seq_in_buffer_ bookkeeping fields and the wall-clock last-flush time
are not modelled; the timed flush trigger is covered by quantifying over
explicit flush operations.) -/
structure ParquetRepo where
  files : List EventFile
  snapFiles : List (String × SnapshotRow)
  snap_buf : List Ev
  delta_buf : List Ev
  trade_buf : List Ev
  tick_buf : List Ev
  write_buffer_size : Nat
deriving DecidableEq, Repr

/-- A freshly constructed columnar repository over an empty filesystem. -/
def ParquetRepo.init (wbs : Nat) : ParquetRepo :=
  { files := [], snapFiles := [], snap_buf := [], delta_buf := [],
    trade_buf := [], tick_buf := [], write_buffer_size := wbs }

/-- flush_buffer — serialize a non-empty buffer into one file placed by its
first event (token bucket, UTC date and hour) and named by the buffer's first
and last sequence numbers. -/
def flushBuffer (etype : EvType) (events : List Ev) : List EventFile :=
  match events with
  | [] => []
  | e0 :: rest =>
      [{ etype := etype,
         bucket := tokenBucket (eventAsset e0).token_id,
         day := (eventTs e0 / 1000) / 86400,
         hour := (eventTs e0 / 1000) / 3600 % 24,
         seq_start := eventSeq e0,
         seq_end := eventSeq ((e0 :: rest).getLast (by simp)),
         rows := (e0 :: rest).map serializeRow }]

/-- flush — write out every non-empty buffer (snapshot, delta, trade, tick in
that order) and clear them all. -/
def ParquetRepo.flush (r : ParquetRepo) : ParquetRepo :=
  { r with
    files := r.files ++ flushBuffer .book_snapshot r.snap_buf
      ++ flushBuffer .book_delta r.delta_buf
      ++ flushBuffer .trade_event r.trade_buf
      ++ flushBuffer .tick_size_change r.tick_buf,
    snap_buf := [], delta_buf := [], trade_buf := [], tick_buf := [] }

/-- Total buffered events across the four buffers. -/
def ParquetRepo.totalBuffered (r : ParquetRepo) : Nat :=
  r.snap_buf.length + r.delta_buf.length + r.trade_buf.length + r.tick_buf.length

/-- maybe_flush — flush when the size threshold is reached.  (The 30-second
wall-clock trigger fires the very same flush; explicit `RepoOp.flush`
operations quantify over its possible timings.) -/
def ParquetRepo.maybe_flush (r : ParquetRepo) : ParquetRepo :=
  if r.totalBuffered ≥ r.write_buffer_size then r.flush else r

/-- append_event — route the event into its type's buffer under the mutex,
then maybe_flush. -/
def ParquetRepo.append_event (r : ParquetRepo) (e : Ev) : ParquetRepo :=
  let r1 := match e with
    | .snap _ => { r with snap_buf := r.snap_buf ++ [e] }
    | .delta _ => { r with delta_buf := r.delta_buf ++ [e] }
    | .trade _ => { r with trade_buf := r.trade_buf ++ [e] }
    | .tick _ => { r with tick_buf := r.tick_buf ++ [e] }
  r1.maybe_flush

/-- The per-row filter of the read loop: sequence strictly greater than the
floor and both asset ids equal. -/
def rowKeep (a : MarketAsset) (min_seq : Nat) (e : Ev) : Bool :=
  decide (eventSeq e > min_seq) && decide (eventAsset e = a)

/-- read_events_from_directory for one event-type shard: list the files under
`events/<type>/<bucket(asset)>/` recursively, skip any whose filename-encoded
seq_end ≤ min_sequence, and row-filter the rest. -/
def readShard (files : List EventFile) (etype : EvType) (a : MarketAsset)
    (min_seq : Nat) : List Ev :=
  (files.filter (fun f => decide (f.etype = etype) &&
      decide (f.bucket = tokenBucket a.token_id))).foldr
    (fun f acc =>
      (if f.seq_end ≤ min_seq then []
       else (f.rows.map deserializeRow).filter (rowKeep a min_seq)) ++ acc) []

/-- The same shard read with the filename skip-scan disabled: every listed
file's rows go through the row filter.  This is the spec's description of the
unpruned read ("filters every row by sequence > min_sequence"); it exists to
be compared against `readShard`. -/
def readShardFullScan (files : List EventFile) (etype : EvType) (a : MarketAsset)
    (min_seq : Nat) : List Ev :=
  (files.filter (fun f => decide (f.etype = etype) &&
      decide (f.bucket = tokenBucket a.token_id))).foldr
    (fun f acc => (f.rows.map deserializeRow).filter (rowKeep a min_seq) ++ acc) []

/-- std::sort of the combined result ascending by sequence number. -/
def seqLe (x y : Ev) : Prop := eventSeq x ≤ eventSeq y

instance : DecidableRel seqLe := fun x y => inferInstanceAs (Decidable (eventSeq x ≤ eventSeq y))

instance : IsTotal Ev seqLe := ⟨fun x y => Nat.le_total (eventSeq x) (eventSeq y)⟩

instance : IsTrans Ev seqLe := ⟨fun _ _ _ h h' => le_trans h h'⟩

/-- get_events_since — concatenate the four shard reads, merge the four
buffers through the same asset/sequence predicate, and sort ascending by
sequence number. -/
def ParquetRepo.get_events_since (r : ParquetRepo) (a : MarketAsset) (min_seq : Nat) :
    List Ev :=
  let disk := readShard r.files .book_snapshot a min_seq
    ++ readShard r.files .book_delta a min_seq
    ++ readShard r.files .trade_event a min_seq
    ++ readShard r.files .tick_size_change a min_seq
  let buffered := (r.snap_buf ++ r.delta_buf ++ r.trade_buf ++ r.tick_buf).filter
    (rowKeep a min_seq)
  (disk ++ buffered).insertionSort seqLe

/-- get_events_since with skip-scan pruning disabled in every shard (the
comparison point for the skip-scan equivalence claim). -/
def ParquetRepo.get_events_since_full_scan (r : ParquetRepo) (a : MarketAsset)
    (min_seq : Nat) : List Ev :=
  let disk := readShardFullScan r.files .book_snapshot a min_seq
    ++ readShardFullScan r.files .book_delta a min_seq
    ++ readShardFullScan r.files .trade_event a min_seq
    ++ readShardFullScan r.files .tick_size_change a min_seq
  let buffered := (r.snap_buf ++ r.delta_buf ++ r.trade_buf ++ r.tick_buf).filter
    (rowKeep a min_seq)
  (disk ++ buffered).insertionSort seqLe

/-- The event files the read path actually opens for a query: listed under
the asset's bucket and not pruned by the filename seq_end test. -/
def ParquetRepo.openedFiles (r : ParquetRepo) (a : MarketAsset) (min_seq : Nat) :
    List EventFile :=
  r.files.filter (fun f => decide (f.bucket = tokenBucket a.token_id) &&
    decide (¬ f.seq_end ≤ min_seq))

/-- store_snapshot — build the 16-column single row from the book (sentinel
zeros / empty string when there is no trade) and overwrite
`snapshots/<token_hash>.parquet`. -/
def storeSnapshotRow (b : OrderBook) : SnapshotRow :=
  { condition_id := b.asset.condition_id, token_id := b.asset.token_id,
    timestamp_ms := b.timestamp, sequence_number := b.last_sequence_number,
    tick_size := b.tick_size, book_hash := b.book_hash,
    bid_prices := b.bids.map (·.price), bid_sizes := b.bids.map (·.size),
    ask_prices := b.asks.map (·.price), ask_sizes := b.asks.map (·.size),
    trade_price := match b.latest_trade with | some t => t.price | none => 0,
    trade_size := match b.latest_trade with | some t => t.size | none => 0,
    trade_side := match b.latest_trade with | some t => sideToU8 t.side | none => 0,
    trade_fee_rate_bps := match b.latest_trade with | some t => t.fee_rate_bps | none => "",
    trade_timestamp_ms := match b.latest_trade with | some t => t.timestamp | none => 0,
    has_trade := b.latest_trade.isSome }

/-- Overwrite-style assignment into the snapshot-file map. -/
def snapFilesSet (m : List (String × SnapshotRow)) (key : String) (row : SnapshotRow) :
    List (String × SnapshotRow) :=
  if m.any (fun p => decide (p.1 = key)) then
    m.map (fun p => if p.1 = key then (key, row) else p)
  else
    m ++ [(key, row)]

/-- ParquetOrderBookRepository::store_snapshot. -/
def ParquetRepo.store_snapshot (r : ParquetRepo) (b : OrderBook) : ParquetRepo :=
  { r with
    snapFiles := snapFilesSet r.snapFiles (tokenHash16 b.asset.token_id) (storeSnapshotRow b) }

/-- Reconstruction step of get_latest_snapshot once the row is in hand:
check the stored ids against the requested asset, apply a synthetic
BookSnapshot to an empty book, then a synthetic TickSizeChange when the
stored tick differs from the 0.01 default, then a synthetic TradeEvent when
has_trade is set. -/
def getLatestSnapshotFromRow (row? : Option SnapshotRow) (a : MarketAsset) :
    Option OrderBook :=
  match row? with
  | none => none
  | some row =>
      if row.token_id ≠ a.token_id ∨ row.condition_id ≠ a.condition_id then none
      else
        let snapAsset : MarketAsset := ⟨row.condition_id, row.token_id⟩
        let snap : BookSnapshot :=
          { asset := snapAsset, timestamp := row.timestamp_ms,
            sequence_number := row.sequence_number,
            bids := zipLevels row.bid_prices row.bid_sizes,
            asks := zipLevels row.ask_prices row.ask_sizes,
            hash := row.book_hash }
        let book0 := (OrderBook.empty snapAsset).applySnap snap
        let book1 :=
          if row.tick_size ≠ mkRat 1 100 then
            book0.applyTick
              { asset := snapAsset, timestamp := row.timestamp_ms,
                sequence_number := row.sequence_number,
                old_tick_size := mkRat 1 100, new_tick_size := row.tick_size }
          else book0
        let book2 :=
          if row.has_trade then
            book1.applyTrade
              { asset := snapAsset, timestamp := row.trade_timestamp_ms,
                sequence_number := row.sequence_number,
                price := row.trade_price, size := row.trade_size,
                side := sideOfU8 row.trade_side,
                fee_rate_bps := row.trade_fee_rate_bps }
          else book1
        some book2

/-- ParquetOrderBookRepository::get_latest_snapshot — read the asset's
snapshot file if present and reconstruct. -/
def ParquetRepo.get_latest_snapshot (r : ParquetRepo) (a : MarketAsset) :
    Option OrderBook :=
  getLatestSnapshotFromRow
    ((r.snapFiles.find? (fun p => decide (p.1 = tokenHash16 a.token_id))).map (·.2)) a

/-- A repository interaction: an append, or a flush (size-triggered flushes
happen inside `append_event`; an explicit flush models the 30-second timer
and the destructor). -/
inductive RepoOp where
  | append (e : Ev)
  | flush
deriving DecidableEq, Repr

/-- Run a sequence of repository interactions. -/
def runRepo (r : ParquetRepo) (ops : List RepoOp) : ParquetRepo :=
  ops.foldl (fun r op => match op with
    | .append e => r.append_event e
    | .flush => r.flush) r

/-- The events appended by a sequence of interactions, in order. -/
def appendedEvents (ops : List RepoOp) : List Ev :=
  ops.foldr (fun op acc => match op with
    | .append e => e :: acc
    | .flush => acc) []

/-! ### Ordering predicates used by the claims -/

/-- Strict ascending-sequence order on events. -/
def seqLt (x y : Ev) : Prop := eventSeq x < eventSeq y

instance : DecidableRel seqLt := fun x y => inferInstanceAs (Decidable (eventSeq x < eventSeq y))

instance : IsAntisymm Ev seqLt :=
  ⟨fun _ _ h h' => absurd (lt_trans h h') (lt_irrefl _)⟩

/-- Bids invariant: prices strictly descending (hence pairwise distinct). -/
def BidsSorted (l : List PriceLevel) : Prop :=
  (l.map PriceLevel.price).Pairwise (fun x y => y < x)

/-- Asks invariant: prices strictly ascending (hence pairwise distinct). -/
def AsksSorted (l : List PriceLevel) : Prop :=
  (l.map PriceLevel.price).Pairwise (fun x y => x < y)

/-- Weak bid order: prices non-increasing (what any std::sort run guarantees
even when the snapshot carries duplicate prices). -/
def BidsWeak (l : List PriceLevel) : Prop :=
  (l.map PriceLevel.price).Pairwise (fun x y => y ≤ x)

/-- Weak ask order: prices non-decreasing. -/
def AsksWeak (l : List PriceLevel) : Prop :=
  (l.map PriceLevel.price).Pairwise (fun x y => x ≤ y)

instance (l : List PriceLevel) : Decidable (BidsSorted l) :=
  inferInstanceAs (Decidable (List.Pairwise _ _))

instance (l : List PriceLevel) : Decidable (AsksSorted l) :=
  inferInstanceAs (Decidable (List.Pairwise _ _))

instance (l : List PriceLevel) : Decidable (BidsWeak l) :=
  inferInstanceAs (Decidable (List.Pairwise _ _))

instance (l : List PriceLevel) : Decidable (AsksWeak l) :=
  inferInstanceAs (Decidable (List.Pairwise _ _))

/-- No stored level has size zero. -/
def NoZeros (b : OrderBook) : Prop :=
  (∀ l ∈ b.bids, l.size ≠ 0) ∧ (∀ l ∈ b.asks, l.size ≠ 0)

/-- An event whose snapshot levels (if it is a snapshot) all carry nonzero
size. -/
def snapSizesNonzero : Ev → Prop
  | .snap e => (∀ l ∈ e.bids, l.size ≠ 0) ∧ (∀ l ∈ e.asks, l.size ≠ 0)
  | _ => True

/-- An event whose snapshot levels (if it is a snapshot) have pairwise
distinct prices on each side. -/
def snapPricesNodup : Ev → Prop
  | .snap e => (e.bids.map PriceLevel.price).Nodup ∧ (e.asks.map PriceLevel.price).Nodup
  | _ => True

/-! ### Concrete sample data for witnesses and counterexamples -/

/-- The asset used throughout the repository's unit tests. -/
def sampleAsset : MarketAsset := ⟨"0xbd31dc", "6581861"⟩

/-- A second asset whose token id differs in its first 8 characters. -/
def otherAsset : MarketAsset := ⟨"0xother", "99912345999"⟩

/-- A book reachable by folding a trade (sequence 1, timestamp 100) and then
an empty delta (sequence 2, timestamp 200) into the empty book. -/
def tradeThenDeltaBook : OrderBook :=
  foldEvents sampleAsset
    [.trade ⟨sampleAsset, 100, 1, mkRat 1 2, 5, .BUY, "0"⟩,
     .delta ⟨sampleAsset, 200, 2, []⟩]

/-- A snapshot event carrying a zero-size bid level (constructible: Quantity
accepts 0, Price accepts 0.5). -/
def zeroSizeSnapEv : Ev :=
  .snap ⟨sampleAsset, 10, 1, [⟨mkRat 1 2, 0⟩], [], "h"⟩

/-- A snapshot event carrying two bid levels at the same price. -/
def dupPriceSnapEv : Ev :=
  .snap ⟨sampleAsset, 10, 1, [⟨mkRat 1 2, 1⟩, ⟨mkRat 1 2, 2⟩], [], "h"⟩

/-- A sample trade event carrying a given sequence number. -/
def sampleTradeEv (n : Nat) : Ev :=
  .trade ⟨sampleAsset, 1000, n, mkRat 1 2, 3, .BUY, "0"⟩

/-- Six appends with sequences 1..6 against write_buffer_size 3: the first
three land in one flushed file, the next three in a second. -/
def sixAppendOps : List RepoOp :=
  [.append (sampleTradeEv 1), .append (sampleTradeEv 2), .append (sampleTradeEv 3),
   .append (sampleTradeEv 4), .append (sampleTradeEv 5), .append (sampleTradeEv 6)]

/-- A concrete snapshot event used by the service witnesses. -/
def sampleSnapEv : Ev :=
  .snap ⟨sampleAsset, 1000, 0, [⟨mkRat 48 100, 30⟩, ⟨mkRat 49 100, 20⟩], [⟨mkRat 52 100, 25⟩], "0xabc"⟩

/-- A delta that removes the 0.48 bid level (new_size 0). -/
def sampleDeltaRemoveEv : Ev :=
  .delta ⟨sampleAsset, 2000, 0, [⟨"6581861", mkRat 48 100, 0, .BUY, mkRat 49 100, mkRat 52 100⟩]⟩

/-- A book with strictly sorted sides, used to witness the delta semantics. -/
def sampleSortedBook : OrderBook :=
  { asset := sampleAsset,
    bids := [⟨mkRat 50 100, 100⟩, ⟨mkRat 48 100, 30⟩],
    asks := [⟨mkRat 52 100, 25⟩],
    latest_trade := none, tick_size := mkRat 1 100, timestamp := 0,
    last_sequence_number := 3, book_hash := "" }

/-- A buy-side change inserting a new 0.49 level. -/
def sampleChange : PriceLevelDelta :=
  ⟨"6581861", mkRat 49 100, 10, .BUY, mkRat 50 100, mkRat 52 100⟩

/-! ### Derived notions used in theorem statements -/

/-- The input events renumbered consecutively starting at `n` — the sequence
assignment the service performs. -/
def numberFrom : Nat → List Ev → List Ev
  | _, [] => []
  | n, e :: es => setSeq e n :: numberFrom (n + 1) es

/-- All events held in a list of files, in file order, decoded. -/
def filesDecode (fs : List EventFile) : List Ev :=
  fs.foldr (fun f acc => f.rows.map deserializeRow ++ acc) []

/-- All events held in flushed files, in file order, decoded. -/
def diskEvents (r : ParquetRepo) : List Ev :=
  filesDecode r.files

/-- All events held in the four buffers (snapshot, delta, trade, tick order). -/
def bufEvents (r : ParquetRepo) : List Ev :=
  r.snap_buf ++ r.delta_buf ++ r.trade_buf ++ r.tick_buf

/-- All appended events share one token-id bucket (first 8 characters), so
every flushed batch lands under the partition directory of every event it
contains. -/
def bucketUniform (es : List Ev) : Prop :=
  ∀ e ∈ es, ∀ e' ∈ es,
    tokenBucket (eventAsset e).token_id = tokenBucket (eventAsset e').token_id

/-- Every row of every flushed file has sequence number at most the seq_end
encoded in the file's name — what makes filename pruning sound. -/
def ParquetRepo.filesSeqBounded (r : ParquetRepo) : Prop :=
  ∀ f ∈ r.files, ∀ e ∈ f.rows.map deserializeRow, eventSeq e ≤ f.seq_end

/-- Every row of every flushed file concerns an asset whose token bucket is
the file's partition bucket — what makes bucket-directory listing complete. -/
def ParquetRepo.filesBucketed (r : ParquetRepo) : Prop :=
  ∀ f ∈ r.files, ∀ e ∈ f.rows.map deserializeRow,
    tokenBucket (eventAsset e).token_id = f.bucket

instance (es : List Ev) : Decidable (bucketUniform es) := by
  unfold bucketUniform; infer_instance

/-- What one listed file contributes to a bucket query, skip-scan included
(used to restate the shard reads file-by-file). -/
def bucketContrib (a : MarketAsset) (ms : Nat) (f : EventFile) : List Ev :=
  if f.bucket = tokenBucket a.token_id then
    (if f.seq_end ≤ ms then []
     else (f.rows.map deserializeRow).filter (rowKeep a ms))
  else []

/-- The per-file contributions over a whole file list. -/
def bucketFold (fs : List EventFile) (a : MarketAsset) (ms : Nat) : List Ev :=
  fs.foldr (fun f acc => bucketContrib a ms f ++ acc) []

/-- The running invariant of the flushed-plus-buffered store against the
events appended so far. -/
def InvAux (r : ParquetRepo) (done : List Ev) : Prop :=
  List.Perm (diskEvents r ++ bufEvents r) done ∧
  (r.snap_buf.Sublist done ∧ r.delta_buf.Sublist done ∧
   r.trade_buf.Sublist done ∧ r.tick_buf.Sublist done) ∧
  r.filesSeqBounded ∧
  (bucketUniform done → r.filesBucketed)


/-! ## Basic lemmas about events and `apply` -/

theorem eventSeq_setSeq (e : Ev) (n : Nat) : eventSeq (setSeq e n) = n := by
  cases e <;> rfl

theorem eventAsset_setSeq (e : Ev) (n : Nat) : eventAsset (setSeq e n) = eventAsset e := by
  cases e <;> rfl

theorem apply_last_seq (b : OrderBook) (e : Ev) :
    (b.apply e).last_sequence_number = eventSeq e := by
  cases e <;> rfl

theorem apply_asset (b : OrderBook) (e : Ev) : (b.apply e).asset = b.asset := by
  cases e <;> rfl

theorem apply_timestamp (b : OrderBook) (e : Ev) : (b.apply e).timestamp = eventTs e := by
  cases e <;> rfl

theorem foldEvents_asset (a : MarketAsset) (es : List Ev) : (foldEvents a es).asset = a := by
  suffices h : ∀ (b : OrderBook), (es.foldl OrderBook.apply b).asset = b.asset by
    exact h (OrderBook.empty a)
  induction es with
  | nil => intro b; rfl
  | cons e es ih => intro b; rw [List.foldl_cons, ih, apply_asset]

/-! ## Lemmas about the association-list map -/

theorem find?_map_replace (m : List (MarketAsset × OrderBook)) (a : MarketAsset)
    (bk : OrderBook) (h : m.any (fun p => decide (p.1 = a))) :
    mapFind? (m.map (fun p => if p.1 = a then (a, bk) else p)) a = some bk := by
  induction m with
  | nil => simp at h
  | cons p ps ih =>
    by_cases hp : p.1 = a
    · simp [mapFind?, List.find?, hp]
    · simp only [List.any_cons, Bool.or_eq_true, decide_eq_true_eq] at h
      rcases h with h | h
      · exact absurd h hp
      · simpa [mapFind?, List.find?, hp] using ih h

theorem find?_append_single (m : List (MarketAsset × OrderBook)) (a : MarketAsset)
    (bk : OrderBook) (h : ¬ m.any (fun p => decide (p.1 = a))) :
    mapFind? (m ++ [(a, bk)]) a = some bk := by
  induction m with
  | nil => simp [mapFind?, List.find?]
  | cons p ps ih =>
    simp only [List.any_cons, Bool.or_eq_true, decide_eq_true_eq, not_or] at h
    simpa [mapFind?, List.find?, h.1] using ih (by simpa using h.2)

theorem mapFind?_insert_self (m : List (MarketAsset × OrderBook)) (a : MarketAsset)
    (bk : OrderBook) : mapFind? (mapInsert m a bk) a = some bk := by
  unfold mapInsert
  by_cases h : m.any (fun p => decide (p.1 = a))
  · rw [if_pos h]; exact find?_map_replace m a bk h
  · rw [if_neg h]; exact find?_append_single m a bk h

/-! ## Lemmas about `on_event` and `runService` -/

theorem maybe_snapshot_repoEvents (s : ServiceState) (a : MarketAsset) (k : Nat) :
    (maybe_snapshot s a k).repoEvents = s.repoEvents := by
  unfold maybe_snapshot
  split
  · split <;> rfl
  · rfl

theorem maybe_snapshot_nextSeq (s : ServiceState) (a : MarketAsset) (k : Nat) :
    (maybe_snapshot s a k).nextSeq = s.nextSeq := by
  unfold maybe_snapshot
  split
  · split <;> rfl
  · rfl

theorem maybe_snapshot_interval (s : ServiceState) (a : MarketAsset) (k : Nat) :
    (maybe_snapshot s a k).snapshot_interval = s.snapshot_interval := by
  unfold maybe_snapshot
  split
  · split <;> rfl
  · rfl

theorem on_event_repoEvents (s : ServiceState) (e : Ev) :
    (on_event s e).repoEvents = s.repoEvents ++ [setSeq e s.nextSeq] := by
  unfold on_event
  rw [maybe_snapshot_repoEvents]

theorem on_event_nextSeq (s : ServiceState) (e : Ev) :
    (on_event s e).nextSeq = s.nextSeq + 1 := by
  unfold on_event
  rw [maybe_snapshot_nextSeq]

theorem on_event_interval (s : ServiceState) (e : Ev) :
    (on_event s e).snapshot_interval = s.snapshot_interval := by
  unfold on_event
  rw [maybe_snapshot_interval]

theorem runService_repoEvents (es : List Ev) :
    ∀ s : ServiceState,
      (runService s es).repoEvents = s.repoEvents ++ numberFrom s.nextSeq es ∧
      (runService s es).nextSeq = s.nextSeq + es.length := by
  induction es with
  | nil => intro s; simp [runService, numberFrom]
  | cons e es ih =>
    intro s
    have h := ih (on_event s e)
    constructor
    · rw [runService, List.foldl_cons, ← runService, h.1, on_event_repoEvents,
        on_event_nextSeq, numberFrom, List.append_assoc, List.singleton_append]
    · rw [runService, List.foldl_cons, ← runService, h.2, on_event_nextSeq,
        List.length_cons]
      omega

theorem numberFrom_map_seq (es : List Ev) :
    ∀ n, (numberFrom n es).map eventSeq = List.range' n es.length := by
  induction es with
  | nil => intro n; rfl
  | cons e es ih =>
    intro n
    simp [numberFrom, List.range', eventSeq_setSeq, ih]

/-! ## Claims about the service counter -/

/-- C4.  Sequence assignment: from a fresh service, the persisted log after
`n` calls to `on_event` is exactly the input events in order, the i-th
renumbered with global sequence i (so sequences are 1..n with no gaps and no
reorderings, shared across all assets and kinds), and `event_count()` then
returns n. -/
theorem sequence_assignment_contract (interval : Nat) (es : List Ev) :
    (runService (freshService interval) es).repoEvents = numberFrom 1 es ∧
    ((runService (freshService interval) es).repoEvents.map eventSeq
      = List.range' 1 es.length) ∧
    eventCount (runService (freshService interval) es) = es.length := by
  have h := runService_repoEvents es (freshService interval)
  have h1 : (runService (freshService interval) es).repoEvents = numberFrom 1 es := by
    simpa [freshService] using h.1
  refine ⟨h1, ?_, ?_⟩
  · rw [h1, numberFrom_map_seq]
  · unfold eventCount
    rw [h.2]
    simp [freshService]

/-- C9.  Frame conditions of the `apply` overloads: the snapshot overload
preserves latest_trade and tick_size; the trade overload preserves both
sides, tick_size and book_hash; the tick overload preserves both sides,
latest_trade and book_hash; and every overload preserves the asset while
taking timestamp and last_sequence_number from the event. -/
theorem apply_frame_conditions (b : OrderBook) :
    (∀ e : BookSnapshot,
      (b.applySnap e).latest_trade = b.latest_trade ∧
      (b.applySnap e).tick_size = b.tick_size) ∧
    (∀ e : TradeEvent,
      (b.applyTrade e).bids = b.bids ∧ (b.applyTrade e).asks = b.asks ∧
      (b.applyTrade e).tick_size = b.tick_size ∧
      (b.applyTrade e).book_hash = b.book_hash) ∧
    (∀ e : TickSizeChange,
      (b.applyTick e).bids = b.bids ∧ (b.applyTick e).asks = b.asks ∧
      (b.applyTick e).latest_trade = b.latest_trade ∧
      (b.applyTick e).book_hash = b.book_hash) ∧
    (∀ v : Ev,
      (b.apply v).asset = b.asset ∧ (b.apply v).timestamp = eventTs v ∧
      (b.apply v).last_sequence_number = eventSeq v) :=
  ⟨fun _ => ⟨rfl, rfl⟩,
   fun _ => ⟨rfl, rfl, rfl, rfl⟩,
   fun _ => ⟨rfl, rfl, rfl, rfl⟩,
   fun v => ⟨apply_asset b v, apply_timestamp b v, apply_last_seq b v⟩⟩

/-- C5.  Snapshot policy: an `on_event` call that assigns global sequence `k`
invokes `store_snapshot` exactly when the interval is positive and divides
`k`, and the book it stores is the post-apply projection of the asset the
event touched; and with interval 0 no event stream ever stores a snapshot. -/
theorem snapshot_policy_contract :
    (∀ (s : ServiceState) (e : Ev),
      if s.snapshot_interval > 0 ∧ s.nextSeq % s.snapshot_interval = 0 then
        (on_event s e).snapLog = s.snapLog ++
          [((mapFind? s.books (eventAsset e)).getD
              (OrderBook.empty (eventAsset e))).apply (setSeq e s.nextSeq)]
      else (on_event s e).snapLog = s.snapLog) ∧
    (∀ es : List Ev, (runService (freshService 0) es).snapLog = []) := by
  have hcall : ∀ (s : ServiceState) (e : Ev),
      if s.snapshot_interval > 0 ∧ s.nextSeq % s.snapshot_interval = 0 then
        (on_event s e).snapLog = s.snapLog ++
          [((mapFind? s.books (eventAsset e)).getD
              (OrderBook.empty (eventAsset e))).apply (setSeq e s.nextSeq)]
      else (on_event s e).snapLog = s.snapLog := by
    intro s e
    simp only [on_event, maybe_snapshot, apply_last_seq, eventSeq_setSeq,
      eventAsset_setSeq, mapFind?_insert_self]
    by_cases hc : s.snapshot_interval > 0 ∧ s.nextSeq % s.snapshot_interval = 0
    · rw [if_pos hc, if_pos hc]
    · rw [if_neg hc, if_neg hc]
  refine ⟨hcall, ?_⟩
  intro es
  suffices h : ∀ (s : ServiceState), s.snapshot_interval = 0 →
      (runService s es).snapLog = s.snapLog by
    exact h (freshService 0) rfl
  induction es with
  | nil => intro s _; rfl
  | cons e es ih =>
    intro s hs
    have hd := hcall s e
    rw [if_neg (by simp [hs])] at hd
    rw [runService, List.foldl_cons, ← runService, ih (on_event s e) (by rw [on_event_interval]; exact hs), hd]

/-- C10.  When `append_event` throws inside `on_event`: the repository log,
the projection map and the snapshot stores are untouched, but the sequence
counter was already incremented, so `event_count()` grows by one, the failed
sequence number is never written, and the next ingested event persists with a
strictly larger sequence number, leaving a gap. -/
theorem failed_append_effects (s : ServiceState) (e e2 : Ev) (h1 : 1 ≤ s.nextSeq) :
    (on_event_throwing s e).repoEvents = s.repoEvents ∧
    (on_event_throwing s e).books = s.books ∧
    (on_event_throwing s e).snapLog = s.snapLog ∧
    (on_event_throwing s e).snapshots = s.snapshots ∧
    eventCount (on_event_throwing s e) = eventCount s + 1 ∧
    (on_event (on_event_throwing s e) e2).repoEvents
      = s.repoEvents ++ [setSeq e2 (s.nextSeq + 1)] ∧
    s.nextSeq < s.nextSeq + 1 ∧
    ((∀ q ∈ s.repoEvents.map eventSeq, q < s.nextSeq) →
      s.nextSeq ∉ ((on_event (on_event_throwing s e) e2).repoEvents.map eventSeq)) := by
  refine ⟨rfl, rfl, rfl, rfl, ?_, ?_, Nat.lt_succ_self _, ?_⟩
  · simp only [eventCount, on_event_throwing]
    omega
  · rw [on_event_repoEvents]; rfl
  · intro hall hmem
    rw [on_event_repoEvents] at hmem
    simp only [on_event_throwing, List.map_append, List.mem_append, List.map_cons,
      List.map_nil, List.mem_singleton, eventSeq_setSeq] at hmem
    rcases hmem with hmem | hmem
    · exact absurd (hall _ hmem) (lt_irrefl _)
    · omega

/-! ## Membership structure of `update_levels` -/

theorem mem_replaceFirstLevel {ls : List PriceLevel} {p s : Rat} {x : PriceLevel}
    (h : x ∈ replaceFirstLevel ls p s) : x ∈ ls ∨ x = ⟨p, s⟩ := by
  induction ls with
  | nil => simp [replaceFirstLevel] at h
  | cons l t ih =>
    by_cases hl : l.price = p
    · rw [replaceFirstLevel, if_pos hl] at h
      rcases List.mem_cons.mp h with h | h
      · exact Or.inr h
      · exact Or.inl (List.mem_cons_of_mem _ h)
    · rw [replaceFirstLevel, if_neg hl] at h
      rcases List.mem_cons.mp h with h | h
      · exact Or.inl (h ▸ List.mem_cons_self _ _)
      · rcases ih h with h | h
        · exact Or.inl (List.mem_cons_of_mem _ h)
        · exact Or.inr h

theorem mem_insertLower {comp : Rat → Rat → Bool} {ls : List PriceLevel} {p s : Rat}
    {x : PriceLevel} (h : x ∈ insertLower comp p s ls) : x ∈ ls ∨ x = ⟨p, s⟩ := by
  induction ls with
  | nil => simp [insertLower] at h; exact Or.inr h
  | cons l t ih =>
    by_cases hl : comp l.price p
    · rw [insertLower, if_pos hl] at h
      rcases List.mem_cons.mp h with h | h
      · exact Or.inl (h ▸ List.mem_cons_self _ _)
      · rcases ih h with h | h
        · exact Or.inl (List.mem_cons_of_mem _ h)
        · exact Or.inr h
    · rw [insertLower, if_neg hl] at h
      rcases List.mem_cons.mp h with h | h
      · exact Or.inr h
      · exact Or.inl h

theorem mem_update_levels {ls : List PriceLevel} {p s : Rat} {comp : Rat → Rat → Bool}
    {x : PriceLevel} (h : x ∈ update_levels ls p s comp) :
    x ∈ ls ∨ (x = ⟨p, s⟩ ∧ s ≠ 0) := by
  unfold update_levels at h
  by_cases hz : s = 0
  · rw [if_pos hz] at h
    exact Or.inl (List.eraseP_sublist _ |>.mem h)
  · rw [if_neg hz] at h
    by_cases hf : ls.any (fun l => decide (l.price = p))
    · rw [if_pos hf] at h
      rcases mem_replaceFirstLevel h with h | h
      · exact Or.inl h
      · exact Or.inr ⟨h, hz⟩
    · rw [if_neg hf] at h
      rcases mem_insertLower h with h | h
      · exact Or.inl h
      · exact Or.inr ⟨h, hz⟩

/-! ## The no-zeros invariant (C2) -/

theorem update_levels_no_zeros {ls : List PriceLevel} {p s : Rat}
    {comp : Rat → Rat → Bool} (h : ∀ l ∈ ls, l.size ≠ 0) :
    ∀ l ∈ update_levels ls p s comp, l.size ≠ 0 := by
  intro l hl
  rcases mem_update_levels hl with hm | ⟨he, hs⟩
  · exact h l hm
  · rw [he]; exact hs

theorem applyChange_no_zeros {sides : List PriceLevel × List PriceLevel}
    {c : PriceLevelDelta}
    (h1 : ∀ l ∈ sides.1, l.size ≠ 0) (h2 : ∀ l ∈ sides.2, l.size ≠ 0) :
    (∀ l ∈ (applyChange sides c).1, l.size ≠ 0) ∧
    (∀ l ∈ (applyChange sides c).2, l.size ≠ 0) := by
  unfold applyChange
  cases c.side with
  | BUY => exact ⟨update_levels_no_zeros h1, h2⟩
  | SELL => exact ⟨h1, update_levels_no_zeros h2⟩

theorem foldl_applyChange_no_zeros (cs : List PriceLevelDelta) :
    ∀ (sides : List PriceLevel × List PriceLevel),
      (∀ l ∈ sides.1, l.size ≠ 0) → (∀ l ∈ sides.2, l.size ≠ 0) →
      (∀ l ∈ (cs.foldl applyChange sides).1, l.size ≠ 0) ∧
      (∀ l ∈ (cs.foldl applyChange sides).2, l.size ≠ 0) := by
  induction cs with
  | nil => intro sides h1 h2; exact ⟨h1, h2⟩
  | cons c cs ih =>
    intro sides h1 h2
    have h := applyChange_no_zeros (c := c) h1 h2
    exact ih _ h.1 h.2

theorem apply_no_zeros {b : OrderBook} {e : Ev} (hb : NoZeros b)
    (he : snapSizesNonzero e) : NoZeros (b.apply e) := by
  cases e with
  | snap e =>
    refine ⟨?_, ?_⟩
    · intro l hl
      exact he.1 l ((List.mem_insertionSort bidLe).mp hl)
    · intro l hl
      exact he.2 l ((List.mem_insertionSort askLe).mp hl)
  | delta e => exact foldl_applyChange_no_zeros e.changes (b.bids, b.asks) hb.1 hb.2
  | trade e => exact hb
  | tick e => exact hb

theorem foldl_apply_no_zeros (es : List Ev) :
    (∀ e ∈ es, snapSizesNonzero e) → ∀ b : OrderBook, NoZeros b →
      NoZeros (es.foldl OrderBook.apply b) := by
  induction es with
  | nil => intro _ b hb; exact hb
  | cons e es ih =>
    intro h b hb
    rw [List.foldl_cons]
    exact ih (fun x hx => h x (List.mem_cons_of_mem _ hx)) _
      (apply_no_zeros hb (h e (List.mem_cons_self _ _)))

/-- C2 (corrected).  No-zeros invariant restricted to event streams whose
BookSnapshot levels all carry nonzero sizes: folding such a stream from the
empty book never stores a zero-size level.  (Deltas with new_size 0 remove
levels and never insert them, but a BookSnapshot's levels are stored
verbatim, so the unrestricted claim fails; see the counterexample.) -/
theorem no_zeros_invariant_amended (a : MarketAsset) (es : List Ev)
    (h : ∀ e ∈ es, snapSizesNonzero e) : NoZeros (foldEvents a es) := by
  refine foldl_apply_no_zeros es h (OrderBook.empty a) ?_
  exact ⟨fun l hl => absurd hl (List.not_mem_nil l),
         fun l hl => absurd hl (List.not_mem_nil l)⟩

/-- C2 counterexample: a constructible BookSnapshot carrying a zero-size bid
level (price 0.5, size 0) is stored verbatim, so the book folded from it
violates the unrestricted no-zeros claim. -/
theorem no_zeros_invariant_counterexample :
    (foldEvents sampleAsset [zeroSizeSnapEv]).bids = [⟨mkRat 1 2, 0⟩] ∧
    ¬ NoZeros (foldEvents sampleAsset [zeroSizeSnapEv]) := by
  refine ⟨rfl, fun h => ?_⟩
  exact h.1 ⟨mkRat 1 2, 0⟩ (List.mem_singleton.mpr rfl) rfl

/-- Witness for the amended C2 at a concrete input: a snapshot with nonzero
levels followed by a zero-size delta removal. -/
theorem no_zeros_invariant_amended_witness :
    (∀ e ∈ [sampleSnapEv, sampleDeltaRemoveEv], snapSizesNonzero e) ∧
    NoZeros (foldEvents sampleAsset [sampleSnapEv, sampleDeltaRemoveEv]) := by
  have hev : ∀ e ∈ [sampleSnapEv, sampleDeltaRemoveEv], snapSizesNonzero e := by
    intro e he
    rcases List.mem_cons.mp he with h | he
    · subst h
      show (∀ l ∈ [(⟨mkRat 48 100, 30⟩ : PriceLevel), ⟨mkRat 49 100, 20⟩], l.size ≠ 0) ∧
        (∀ l ∈ [(⟨mkRat 52 100, 25⟩ : PriceLevel)], l.size ≠ 0)
      decide
    · rcases List.mem_cons.mp he with h | he
      · subst h; trivial
      · exact absurd he (List.not_mem_nil e)
  exact ⟨hev, no_zeros_invariant_amended sampleAsset _ hev⟩

/-! ## Price-order machinery for the sort invariants (C3, C6, C1) -/

theorem map_price_replaceFirstLevel (ls : List PriceLevel) (p s : Rat) :
    (replaceFirstLevel ls p s).map PriceLevel.price = ls.map PriceLevel.price := by
  induction ls with
  | nil => rfl
  | cons l t ih =>
    by_cases hl : l.price = p
    · rw [replaceFirstLevel, if_pos hl]
      simp [hl]
    · rw [replaceFirstLevel, if_neg hl]
      simp [ih]

theorem mem_map_price_insertLower {comp : Rat → Rat → Bool} {ls : List PriceLevel}
    {p s q : Rat} (h : q ∈ (insertLower comp p s ls).map PriceLevel.price) :
    q = p ∨ q ∈ ls.map PriceLevel.price := by
  rcases List.mem_map.mp h with ⟨x, hx, hq⟩
  rcases mem_insertLower hx with hx | hx
  · exact Or.inr (hq ▸ List.mem_map_of_mem _ hx)
  · subst hx; exact Or.inl hq.symm

theorem insertLower_sorted_desc {ls : List PriceLevel} {p s : Rat}
    (h : (ls.map PriceLevel.price).Pairwise (fun x y => y < x))
    (hp : p ∉ ls.map PriceLevel.price) :
    ((insertLower (fun x y => decide (y < x)) p s ls).map PriceLevel.price).Pairwise
      (fun x y => y < x) := by
  induction ls with
  | nil => simp [insertLower]
  | cons l t ih =>
    rw [List.map_cons, List.pairwise_cons] at h
    rw [List.map_cons, List.mem_cons, not_or] at hp
    by_cases hc : (p < l.price : Prop)
    · rw [insertLower, if_pos (by simpa using hc), List.map_cons, List.pairwise_cons]
      refine ⟨?_, ih h.2 hp.2⟩
      intro q hq
      rcases mem_map_price_insertLower hq with hq | hq
      · exact hq ▸ hc
      · exact h.1 q hq
    · rw [insertLower, if_neg (by simpa using hc)]
      push_neg at hc
      have hlp : l.price < p := lt_of_le_of_ne hc (fun he => hp.1 he.symm)
      simp only [List.map_cons, List.pairwise_cons]
      refine ⟨?_, h⟩
      intro q hq
      rcases List.mem_cons.mp hq with hq | hq
      · exact hq ▸ hlp
      · exact lt_trans (h.1 q hq) hlp

theorem insertLower_sorted_asc {ls : List PriceLevel} {p s : Rat}
    (h : (ls.map PriceLevel.price).Pairwise (fun x y => x < y))
    (hp : p ∉ ls.map PriceLevel.price) :
    ((insertLower (fun x y => decide (x < y)) p s ls).map PriceLevel.price).Pairwise
      (fun x y => x < y) := by
  induction ls with
  | nil => simp [insertLower]
  | cons l t ih =>
    rw [List.map_cons, List.pairwise_cons] at h
    rw [List.map_cons, List.mem_cons, not_or] at hp
    by_cases hc : (l.price < p : Prop)
    · rw [insertLower, if_pos (by simpa using hc), List.map_cons, List.pairwise_cons]
      refine ⟨?_, ih h.2 hp.2⟩
      intro q hq
      rcases mem_map_price_insertLower hq with hq | hq
      · exact hq ▸ hc
      · exact h.1 q hq
    · rw [insertLower, if_neg (by simpa using hc)]
      push_neg at hc
      have hlp : p < l.price := lt_of_le_of_ne hc hp.1
      simp only [List.map_cons, List.pairwise_cons]
      refine ⟨?_, h⟩
      intro q hq
      rcases List.mem_cons.mp hq with hq | hq
      · exact hq ▸ hlp
      · exact lt_trans hlp (h.1 q hq)

theorem not_mem_map_price_of_not_any {ls : List PriceLevel} {p : Rat}
    (h : ¬ ls.any (fun l => decide (l.price = p))) : p ∉ ls.map PriceLevel.price := by
  intro hm
  rcases List.mem_map.mp hm with ⟨x, hx, hq⟩
  exact h (List.any_eq_true.mpr ⟨x, hx, by simp [hq]⟩)

theorem update_levels_sorted_desc {ls : List PriceLevel} {p s : Rat}
    (h : BidsSorted ls) : BidsSorted (update_levels ls p s (fun x y => decide (y < x))) := by
  unfold update_levels BidsSorted
  by_cases hz : s = 0
  · rw [if_pos hz]
    exact List.Pairwise.sublist ((List.eraseP_sublist ls).map PriceLevel.price) h
  · rw [if_neg hz]
    by_cases hf : ls.any (fun l => decide (l.price = p))
    · rw [if_pos hf, map_price_replaceFirstLevel]
      exact h
    · rw [if_neg hf]
      exact insertLower_sorted_desc h (not_mem_map_price_of_not_any hf)

theorem update_levels_sorted_asc {ls : List PriceLevel} {p s : Rat}
    (h : AsksSorted ls) : AsksSorted (update_levels ls p s (fun x y => decide (x < y))) := by
  unfold update_levels AsksSorted
  by_cases hz : s = 0
  · rw [if_pos hz]
    exact List.Pairwise.sublist ((List.eraseP_sublist ls).map PriceLevel.price) h
  · rw [if_neg hz]
    by_cases hf : ls.any (fun l => decide (l.price = p))
    · rw [if_pos hf, map_price_replaceFirstLevel]
      exact h
    · rw [if_neg hf]
      exact insertLower_sorted_asc h (not_mem_map_price_of_not_any hf)

theorem foldl_applyChange_sorted (cs : List PriceLevelDelta) :
    ∀ sides : List PriceLevel × List PriceLevel,
      BidsSorted sides.1 → AsksSorted sides.2 →
      BidsSorted (cs.foldl applyChange sides).1 ∧
      AsksSorted (cs.foldl applyChange sides).2 := by
  induction cs with
  | nil => intro sides h1 h2; exact ⟨h1, h2⟩
  | cons c cs ih =>
    intro sides h1 h2
    rw [List.foldl_cons]
    unfold applyChange
    cases c.side with
    | BUY => exact ih _ (update_levels_sorted_desc h1) h2
    | SELL => exact ih _ h1 (update_levels_sorted_asc h2)

theorem sortBids_weak (l : List PriceLevel) : BidsWeak (sortBids l) := by
  have h := List.sorted_insertionSort bidLe l
  unfold BidsWeak
  rw [List.pairwise_map]
  exact h

theorem sortAsks_weak (l : List PriceLevel) : AsksWeak (sortAsks l) := by
  have h := List.sorted_insertionSort askLe l
  unfold AsksWeak
  rw [List.pairwise_map]
  exact h

theorem pairwise_lt_of_le_nodup_desc {m : List Rat}
    (h : m.Pairwise (fun x y => y ≤ x)) (hn : m.Nodup) :
    m.Pairwise (fun x y => y < x) :=
  (h.and hn).imp (fun hp => lt_of_le_of_ne hp.1 (Ne.symm hp.2))

theorem pairwise_lt_of_le_nodup_asc {m : List Rat}
    (h : m.Pairwise (fun x y => x ≤ y)) (hn : m.Nodup) :
    m.Pairwise (fun x y => x < y) :=
  (h.and hn).imp (fun hp => lt_of_le_of_ne hp.1 hp.2)

theorem sortBids_map_price_perm (l : List PriceLevel) :
    List.Perm ((sortBids l).map PriceLevel.price) (l.map PriceLevel.price) :=
  (List.perm_insertionSort bidLe l).map PriceLevel.price

theorem sortAsks_map_price_perm (l : List PriceLevel) :
    List.Perm ((sortAsks l).map PriceLevel.price) (l.map PriceLevel.price) :=
  (List.perm_insertionSort askLe l).map PriceLevel.price

theorem sortBids_sorted_of_nodup {l : List PriceLevel}
    (hn : (l.map PriceLevel.price).Nodup) : BidsSorted (sortBids l) :=
  pairwise_lt_of_le_nodup_desc (sortBids_weak l)
    ((sortBids_map_price_perm l).nodup_iff.mpr hn)

theorem sortAsks_sorted_of_nodup {l : List PriceLevel}
    (hn : (l.map PriceLevel.price).Nodup) : AsksSorted (sortAsks l) :=
  pairwise_lt_of_le_nodup_asc (sortAsks_weak l)
    ((sortAsks_map_price_perm l).nodup_iff.mpr hn)

theorem apply_sorted {b : OrderBook} {e : Ev}
    (hb : BidsSorted b.bids) (ha : AsksSorted b.asks) (he : snapPricesNodup e) :
    BidsSorted (b.apply e).bids ∧ AsksSorted (b.apply e).asks := by
  cases e with
  | snap e => exact ⟨sortBids_sorted_of_nodup he.1, sortAsks_sorted_of_nodup he.2⟩
  | delta e => exact foldl_applyChange_sorted e.changes (b.bids, b.asks) hb ha
  | trade e => exact ⟨hb, ha⟩
  | tick e => exact ⟨hb, ha⟩

theorem foldl_apply_sorted (es : List Ev) :
    (∀ e ∈ es, snapPricesNodup e) → ∀ b : OrderBook,
      BidsSorted b.bids → AsksSorted b.asks →
      BidsSorted (es.foldl OrderBook.apply b).bids ∧
      AsksSorted (es.foldl OrderBook.apply b).asks := by
  induction es with
  | nil => intro _ b h1 h2; exact ⟨h1, h2⟩
  | cons e es ih =>
    intro h b h1 h2
    rw [List.foldl_cons]
    have hstep := apply_sorted h1 h2 (h e (List.mem_cons_self _ _))
    exact ih (fun x hx => h x (List.mem_cons_of_mem _ hx)) _ hstep.1 hstep.2

/-- C3 (corrected).  Sort-and-uniqueness invariant restricted to streams
whose BookSnapshot events carry pairwise-distinct prices per side: the folded
book has bids strictly descending and asks strictly ascending in price, and
no two levels on a side share a price.  (A BookSnapshot with two levels at
one price is stored with both levels, so the unrestricted claim fails; see
the counterexample.) -/
theorem sort_invariant_amended (a : MarketAsset) (es : List Ev)
    (h : ∀ e ∈ es, snapPricesNodup e) :
    BidsSorted (foldEvents a es).bids ∧ AsksSorted (foldEvents a es).asks ∧
    ((foldEvents a es).bids.map PriceLevel.price).Nodup ∧
    ((foldEvents a es).asks.map PriceLevel.price).Nodup := by
  have hfold := foldl_apply_sorted es h (OrderBook.empty a)
    (List.Pairwise.nil) (List.Pairwise.nil)
  refine ⟨hfold.1, hfold.2, ?_, ?_⟩
  · exact hfold.1.imp (fun hlt => (ne_of_lt hlt).symm)
  · exact hfold.2.imp (fun hlt => ne_of_lt hlt)

/-- C3 counterexample: a BookSnapshot with two bid levels at price 0.5 yields
a book whose bids contain two levels sharing a price, violating strict
descending order and uniqueness. -/
theorem sort_invariant_counterexample :
    (foldEvents sampleAsset [dupPriceSnapEv]).bids.map PriceLevel.price
      = [mkRat 1 2, mkRat 1 2] ∧
    ¬ BidsSorted (foldEvents sampleAsset [dupPriceSnapEv]).bids ∧
    ¬ ((foldEvents sampleAsset [dupPriceSnapEv]).bids.map PriceLevel.price).Nodup := by
  refine ⟨by decide, ?_, by decide⟩
  intro h
  unfold BidsSorted at h
  rw [show (foldEvents sampleAsset [dupPriceSnapEv]).bids.map PriceLevel.price
    = [mkRat 1 2, mkRat 1 2] by decide] at h
  rcases List.pairwise_cons.mp h with ⟨h1, _⟩
  exact absurd (h1 (mkRat 1 2) (List.mem_singleton.mpr rfl)) (lt_irrefl _)

/-- Witness for the amended C3 at a concrete input: snapshot with distinct
prices per side followed by a delta insertion. -/
theorem sort_invariant_amended_witness :
    (∀ e ∈ [sampleSnapEv, sampleDeltaRemoveEv], snapPricesNodup e) ∧
    (BidsSorted (foldEvents sampleAsset [sampleSnapEv, sampleDeltaRemoveEv]).bids ∧
     AsksSorted (foldEvents sampleAsset [sampleSnapEv, sampleDeltaRemoveEv]).asks ∧
     ((foldEvents sampleAsset [sampleSnapEv, sampleDeltaRemoveEv]).bids.map
       PriceLevel.price).Nodup ∧
     ((foldEvents sampleAsset [sampleSnapEv, sampleDeltaRemoveEv]).asks.map
       PriceLevel.price).Nodup) := by
  have hev : ∀ e ∈ [sampleSnapEv, sampleDeltaRemoveEv], snapPricesNodup e := by
    intro e he
    rcases List.mem_cons.mp he with h | he
    · subst h
      show ([mkRat 48 100, mkRat 49 100] : List Rat).Nodup ∧ ([mkRat 52 100] : List Rat).Nodup
      decide
    · rcases List.mem_cons.mp he with h | he
      · subst h; trivial
      · exact absurd he (List.not_mem_nil e)
  exact ⟨hev, sort_invariant_amended sampleAsset _ hev⟩

/-! ## Functional characterization of one delta change (C6) -/

theorem any_price_iff (ls : List PriceLevel) (p : Rat) :
    ls.any (fun l => decide (l.price = p)) = true ↔ p ∈ ls.map PriceLevel.price := by
  simp only [List.any_eq_true, decide_eq_true_eq, List.mem_map]

theorem bidsSorted_nodup {ls : List PriceLevel} (h : BidsSorted ls) :
    (ls.map PriceLevel.price).Nodup :=
  h.imp (fun hlt => ne_of_gt hlt)

theorem asksSorted_nodup {ls : List PriceLevel} (h : AsksSorted ls) :
    (ls.map PriceLevel.price).Nodup :=
  h.imp (fun hlt => ne_of_lt hlt)

theorem filter_price_ne_eq_self {ls : List PriceLevel} {p : Rat}
    (hp : p ∉ ls.map PriceLevel.price) :
    ls.filter (fun l => decide (l.price ≠ p)) = ls := by
  apply List.filter_eq_self.mpr
  intro x hx
  simp only [ne_eq, decide_not, Bool.not_eq_eq_eq_not, Bool.not_true, decide_eq_false_iff_not]
  intro h
  exact hp (h ▸ List.mem_map_of_mem _ hx)

theorem eraseP_price_eq_filter {ls : List PriceLevel} {p : Rat}
    (hn : (ls.map PriceLevel.price).Nodup) :
    ls.eraseP (fun l => decide (l.price = p))
      = ls.filter (fun l => decide (l.price ≠ p)) := by
  induction ls with
  | nil => rfl
  | cons l t ih =>
    rw [List.map_cons, List.nodup_cons] at hn
    by_cases hl : l.price = p
    · rw [List.eraseP_cons_of_pos (by simp [hl]), List.filter_cons_of_neg (by simp [hl])]
      symm
      apply filter_price_ne_eq_self
      intro hm
      exact hn.1 (hl ▸ hm)
    · rw [List.eraseP_cons_of_neg (by simp [hl]), List.filter_cons_of_pos (by simp [hl]),
        ih hn.2]

theorem map_if_price_not_mem {ls : List PriceLevel} {p : Rat} {v : PriceLevel}
    (hp : p ∉ ls.map PriceLevel.price) :
    ls.map (fun l => if l.price = p then v else l) = ls := by
  induction ls with
  | nil => rfl
  | cons l t ih =>
    rw [List.map_cons, List.mem_cons, not_or] at hp
    rw [List.map_cons, if_neg (fun he => hp.1 he.symm), ih hp.2]

theorem replaceFirst_eq_map {ls : List PriceLevel} {p : Rat} {s : Rat}
    (hn : (ls.map PriceLevel.price).Nodup) :
    replaceFirstLevel ls p s
      = ls.map (fun l => if l.price = p then ⟨p, s⟩ else l) := by
  induction ls with
  | nil => rfl
  | cons l t ih =>
    rw [List.map_cons, List.nodup_cons] at hn
    by_cases hl : l.price = p
    · rw [replaceFirstLevel, if_pos hl, List.map_cons, if_pos hl]
      rw [map_if_price_not_mem (fun hm => hn.1 (hl ▸ hm))]
    · rw [replaceFirstLevel, if_neg hl, List.map_cons, if_neg hl, ih hn.2]

theorem insertLower_perm (comp : Rat → Rat → Bool) (p s : Rat) (ls : List PriceLevel) :
    List.Perm (insertLower comp p s ls) (⟨p, s⟩ :: ls) := by
  induction ls with
  | nil => exact List.Perm.refl _
  | cons l t ih =>
    by_cases hc : comp l.price p
    · rw [insertLower, if_pos hc]
      exact (ih.cons l).trans (List.Perm.swap _ _ _)
    · rw [insertLower, if_neg hc]

/-- C6.  Per-change BookDelta semantics on a book whose sides satisfy the
sort invariants: a change touches only its own side, locating the level by
exact price equality — new_size 0 erases the level when present and is a
no-op when absent; an existing level gets its size replaced; otherwise the
new level is inserted so that the side stays sorted (equivalently: the new
side is sorted and holds exactly the old levels plus the new one).  The
opposite side is untouched. -/
theorem delta_change_semantics (b : OrderBook) (ha' : MarketAsset) (ts : Int)
    (sq : Nat) (c : PriceLevelDelta)
    (hb : BidsSorted b.bids) (ha : AsksSorted b.asks) :
    (c.side = .BUY →
      (b.applyDelta ⟨ha', ts, sq, [c]⟩).asks = b.asks ∧
      (c.new_size = 0 →
        (b.applyDelta ⟨ha', ts, sq, [c]⟩).bids
          = b.bids.filter (fun l => decide (l.price ≠ c.price)) ∧
        (c.price ∉ b.bids.map PriceLevel.price →
          (b.applyDelta ⟨ha', ts, sq, [c]⟩).bids = b.bids)) ∧
      (c.new_size ≠ 0 → c.price ∈ b.bids.map PriceLevel.price →
        (b.applyDelta ⟨ha', ts, sq, [c]⟩).bids
          = b.bids.map (fun l => if l.price = c.price then ⟨c.price, c.new_size⟩ else l)) ∧
      (c.new_size ≠ 0 → c.price ∉ b.bids.map PriceLevel.price →
        BidsSorted (b.applyDelta ⟨ha', ts, sq, [c]⟩).bids ∧
        List.Perm (b.applyDelta ⟨ha', ts, sq, [c]⟩).bids
          (⟨c.price, c.new_size⟩ :: b.bids))) ∧
    (c.side = .SELL →
      (b.applyDelta ⟨ha', ts, sq, [c]⟩).bids = b.bids ∧
      (c.new_size = 0 →
        (b.applyDelta ⟨ha', ts, sq, [c]⟩).asks
          = b.asks.filter (fun l => decide (l.price ≠ c.price)) ∧
        (c.price ∉ b.asks.map PriceLevel.price →
          (b.applyDelta ⟨ha', ts, sq, [c]⟩).asks = b.asks)) ∧
      (c.new_size ≠ 0 → c.price ∈ b.asks.map PriceLevel.price →
        (b.applyDelta ⟨ha', ts, sq, [c]⟩).asks
          = b.asks.map (fun l => if l.price = c.price then ⟨c.price, c.new_size⟩ else l)) ∧
      (c.new_size ≠ 0 → c.price ∉ b.asks.map PriceLevel.price →
        AsksSorted (b.applyDelta ⟨ha', ts, sq, [c]⟩).asks ∧
        List.Perm (b.applyDelta ⟨ha', ts, sq, [c]⟩).asks
          (⟨c.price, c.new_size⟩ :: b.asks))) := by
  constructor
  · intro hside
    have hstep : (b.applyDelta ⟨ha', ts, sq, [c]⟩).bids
          = update_levels b.bids c.price c.new_size (fun x y => decide (y < x)) ∧
        (b.applyDelta ⟨ha', ts, sq, [c]⟩).asks = b.asks := by
      unfold OrderBook.applyDelta applyChange
      rw [List.foldl_cons, List.foldl_nil, hside]
      exact ⟨rfl, rfl⟩
    refine ⟨hstep.2, ?_, ?_, ?_⟩
    · intro hz
      rw [hstep.1]
      unfold update_levels
      rw [if_pos hz, eraseP_price_eq_filter (bidsSorted_nodup hb)]
      refine ⟨rfl, ?_⟩
      intro hnm
      exact filter_price_ne_eq_self hnm
    · intro hz hm
      rw [hstep.1]
      unfold update_levels
      rw [if_neg hz, if_pos ((any_price_iff _ _).mpr hm)]
      exact replaceFirst_eq_map (bidsSorted_nodup hb)
    · intro hz hnm
      rw [hstep.1]
      unfold update_levels
      rw [if_neg hz, if_neg (fun hany => hnm ((any_price_iff _ _).mp hany))]
      exact ⟨insertLower_sorted_desc hb hnm, insertLower_perm _ _ _ _⟩
  · intro hside
    have hstep : (b.applyDelta ⟨ha', ts, sq, [c]⟩).asks
          = update_levels b.asks c.price c.new_size (fun x y => decide (x < y)) ∧
        (b.applyDelta ⟨ha', ts, sq, [c]⟩).bids = b.bids := by
      unfold OrderBook.applyDelta applyChange
      rw [List.foldl_cons, List.foldl_nil, hside]
      exact ⟨rfl, rfl⟩
    refine ⟨hstep.2, ?_, ?_, ?_⟩
    · intro hz
      rw [hstep.1]
      unfold update_levels
      rw [if_pos hz, eraseP_price_eq_filter (asksSorted_nodup ha)]
      refine ⟨rfl, ?_⟩
      intro hnm
      exact filter_price_ne_eq_self hnm
    · intro hz hm
      rw [hstep.1]
      unfold update_levels
      rw [if_neg hz, if_pos ((any_price_iff _ _).mpr hm)]
      exact replaceFirst_eq_map (asksSorted_nodup ha)
    · intro hz hnm
      rw [hstep.1]
      unfold update_levels
      rw [if_neg hz, if_neg (fun hany => hnm ((any_price_iff _ _).mp hany))]
      exact ⟨insertLower_sorted_asc ha hnm, insertLower_perm _ _ _ _⟩

/-- Witness for C6 at a concrete sorted book and a concrete buy-side insert
change. -/
theorem delta_change_semantics_witness :
    BidsSorted sampleSortedBook.bids ∧ AsksSorted sampleSortedBook.asks ∧
    (sampleChange.side = .BUY →
      (sampleSortedBook.applyDelta ⟨sampleAsset, 3000, 4, [sampleChange]⟩).asks
        = sampleSortedBook.asks ∧
      (sampleChange.new_size = 0 →
        (sampleSortedBook.applyDelta ⟨sampleAsset, 3000, 4, [sampleChange]⟩).bids
          = sampleSortedBook.bids.filter (fun l => decide (l.price ≠ sampleChange.price)) ∧
        (sampleChange.price ∉ sampleSortedBook.bids.map PriceLevel.price →
          (sampleSortedBook.applyDelta ⟨sampleAsset, 3000, 4, [sampleChange]⟩).bids
            = sampleSortedBook.bids)) ∧
      (sampleChange.new_size ≠ 0 →
        sampleChange.price ∈ sampleSortedBook.bids.map PriceLevel.price →
        (sampleSortedBook.applyDelta ⟨sampleAsset, 3000, 4, [sampleChange]⟩).bids
          = sampleSortedBook.bids.map (fun l =>
              if l.price = sampleChange.price then
                ⟨sampleChange.price, sampleChange.new_size⟩ else l)) ∧
      (sampleChange.new_size ≠ 0 →
        sampleChange.price ∉ sampleSortedBook.bids.map PriceLevel.price →
        BidsSorted (sampleSortedBook.applyDelta
          ⟨sampleAsset, 3000, 4, [sampleChange]⟩).bids ∧
        List.Perm (sampleSortedBook.applyDelta
            ⟨sampleAsset, 3000, 4, [sampleChange]⟩).bids
          (⟨sampleChange.price, sampleChange.new_size⟩ :: sampleSortedBook.bids))) :=
  ⟨by decide, by decide,
   (delta_change_semantics sampleSortedBook sampleAsset 3000 4 sampleChange
     (by decide) (by decide)).1⟩

/-! ## Weak order is maintained by every fold (used for the round-trip) -/

theorem insertLower_weak_desc {ls : List PriceLevel} {p s : Rat}
    (h : (ls.map PriceLevel.price).Pairwise (fun x y => y ≤ x)) :
    ((insertLower (fun x y => decide (y < x)) p s ls).map PriceLevel.price).Pairwise
      (fun x y => y ≤ x) := by
  induction ls with
  | nil => simp [insertLower]
  | cons l t ih =>
    rw [List.map_cons, List.pairwise_cons] at h
    by_cases hc : (p < l.price : Prop)
    · rw [insertLower, if_pos (by simpa using hc), List.map_cons, List.pairwise_cons]
      refine ⟨?_, ih h.2⟩
      intro q hq
      rcases mem_map_price_insertLower hq with hq | hq
      · exact hq ▸ le_of_lt hc
      · exact h.1 q hq
    · rw [insertLower, if_neg (by simpa using hc)]
      push_neg at hc
      simp only [List.map_cons, List.pairwise_cons]
      refine ⟨?_, h⟩
      intro q hq
      rcases List.mem_cons.mp hq with hq | hq
      · exact hq ▸ hc
      · exact le_trans (h.1 q hq) hc

theorem insertLower_weak_asc {ls : List PriceLevel} {p s : Rat}
    (h : (ls.map PriceLevel.price).Pairwise (fun x y => x ≤ y)) :
    ((insertLower (fun x y => decide (x < y)) p s ls).map PriceLevel.price).Pairwise
      (fun x y => x ≤ y) := by
  induction ls with
  | nil => simp [insertLower]
  | cons l t ih =>
    rw [List.map_cons, List.pairwise_cons] at h
    by_cases hc : (l.price < p : Prop)
    · rw [insertLower, if_pos (by simpa using hc), List.map_cons, List.pairwise_cons]
      refine ⟨?_, ih h.2⟩
      intro q hq
      rcases mem_map_price_insertLower hq with hq | hq
      · exact hq ▸ le_of_lt hc
      · exact h.1 q hq
    · rw [insertLower, if_neg (by simpa using hc)]
      push_neg at hc
      simp only [List.map_cons, List.pairwise_cons]
      refine ⟨?_, h⟩
      intro q hq
      rcases List.mem_cons.mp hq with hq | hq
      · exact hq ▸ hc
      · exact le_trans hc (h.1 q hq)

theorem update_levels_weak_desc {ls : List PriceLevel} {p s : Rat}
    (h : BidsWeak ls) : BidsWeak (update_levels ls p s (fun x y => decide (y < x))) := by
  unfold update_levels BidsWeak
  by_cases hz : s = 0
  · rw [if_pos hz]
    exact List.Pairwise.sublist ((List.eraseP_sublist ls).map PriceLevel.price) h
  · rw [if_neg hz]
    by_cases hf : ls.any (fun l => decide (l.price = p))
    · rw [if_pos hf, map_price_replaceFirstLevel]
      exact h
    · rw [if_neg hf]
      exact insertLower_weak_desc h

theorem update_levels_weak_asc {ls : List PriceLevel} {p s : Rat}
    (h : AsksWeak ls) : AsksWeak (update_levels ls p s (fun x y => decide (x < y))) := by
  unfold update_levels AsksWeak
  by_cases hz : s = 0
  · rw [if_pos hz]
    exact List.Pairwise.sublist ((List.eraseP_sublist ls).map PriceLevel.price) h
  · rw [if_neg hz]
    by_cases hf : ls.any (fun l => decide (l.price = p))
    · rw [if_pos hf, map_price_replaceFirstLevel]
      exact h
    · rw [if_neg hf]
      exact insertLower_weak_asc h

theorem foldl_applyChange_weak (cs : List PriceLevelDelta) :
    ∀ sides : List PriceLevel × List PriceLevel,
      BidsWeak sides.1 → AsksWeak sides.2 →
      BidsWeak (cs.foldl applyChange sides).1 ∧
      AsksWeak (cs.foldl applyChange sides).2 := by
  induction cs with
  | nil => intro sides h1 h2; exact ⟨h1, h2⟩
  | cons c cs ih =>
    intro sides h1 h2
    rw [List.foldl_cons]
    unfold applyChange
    cases c.side with
    | BUY => exact ih _ (update_levels_weak_desc h1) h2
    | SELL => exact ih _ h1 (update_levels_weak_asc h2)

theorem apply_weak {b : OrderBook} {e : Ev}
    (hb : BidsWeak b.bids) (ha : AsksWeak b.asks) :
    BidsWeak (b.apply e).bids ∧ AsksWeak (b.apply e).asks := by
  cases e with
  | snap e => exact ⟨sortBids_weak e.bids, sortAsks_weak e.asks⟩
  | delta e => exact foldl_applyChange_weak e.changes (b.bids, b.asks) hb ha
  | trade e => exact ⟨hb, ha⟩
  | tick e => exact ⟨hb, ha⟩

theorem foldEvents_weak (a : MarketAsset) (es : List Ev) :
    BidsWeak (foldEvents a es).bids ∧ AsksWeak (foldEvents a es).asks := by
  suffices hgen : ∀ b : OrderBook, BidsWeak b.bids → AsksWeak b.asks →
      BidsWeak (es.foldl OrderBook.apply b).bids ∧
      AsksWeak (es.foldl OrderBook.apply b).asks from
    hgen (OrderBook.empty a) List.Pairwise.nil List.Pairwise.nil
  induction es with
  | nil => intro b h1 h2; exact ⟨h1, h2⟩
  | cons e es ih =>
    intro b h1 h2
    rw [List.foldl_cons]
    have hstep := apply_weak (e := e) h1 h2
    exact ih _ hstep.1 hstep.2

/-! ## Snapshot round-trip machinery (C1) -/

theorem sideOfU8_sideToU8 (s : Side) : sideOfU8 (sideToU8 s) = s := by
  cases s <;> rfl

theorem zipLevels_map (l : List PriceLevel) :
    zipLevels (l.map PriceLevel.price) (l.map PriceLevel.size) = l := by
  induction l with
  | nil => rfl
  | cons x t ih => rw [List.map_cons, List.map_cons, zipLevels, ih]

theorem sortBids_eq_of_weak {l : List PriceLevel} (h : BidsWeak l) : sortBids l = l := by
  apply List.Sorted.insertionSort_eq
  unfold BidsWeak at h
  rw [List.pairwise_map] at h
  exact h

theorem sortAsks_eq_of_weak {l : List PriceLevel} (h : AsksWeak l) : sortAsks l = l := by
  apply List.Sorted.insertionSort_eq
  unfold AsksWeak at h
  rw [List.pairwise_map] at h
  exact h

theorem snapFind_map_replace (m : List (String × SnapshotRow)) (k : String)
    (row : SnapshotRow) (h : m.any (fun p => decide (p.1 = k))) :
    ((m.map (fun p => if p.1 = k then (k, row) else p)).find?
      (fun p => decide (p.1 = k))).map (·.2) = some row := by
  induction m with
  | nil => simp at h
  | cons p ps ih =>
    by_cases hp : p.1 = k
    · simp [List.find?, hp]
    · simp only [List.any_cons, Bool.or_eq_true, decide_eq_true_eq] at h
      rcases h with h | h
      · exact absurd h hp
      · simpa [List.find?, hp] using ih h

theorem snapFind_append_single (m : List (String × SnapshotRow)) (k : String)
    (row : SnapshotRow) (h : ¬ m.any (fun p => decide (p.1 = k))) :
    ((m ++ [(k, row)]).find? (fun p => decide (p.1 = k))).map (·.2) = some row := by
  induction m with
  | nil => simp [List.find?]
  | cons p ps ih =>
    simp only [List.any_cons, Bool.or_eq_true, decide_eq_true_eq, not_or] at h
    simpa [List.find?, h.1] using ih (by simpa using h.2)

theorem snapFilesSet_find_self (m : List (String × SnapshotRow)) (k : String)
    (row : SnapshotRow) :
    ((snapFilesSet m k row).find? (fun p => decide (p.1 = k))).map (·.2) = some row := by
  unfold snapFilesSet
  by_cases h : m.any (fun p => decide (p.1 = k))
  · rw [if_pos h]; exact snapFind_map_replace m k row h
  · rw [if_neg h]; exact snapFind_append_single m k row h

theorem roundtrip_row (b : OrderBook) (hs1 : BidsSorted b.bids) (hs2 : AsksSorted b.asks) :
    getLatestSnapshotFromRow (some (storeSnapshotRow b)) b.asset
      = some { asset := b.asset,
               bids := b.bids,
               asks := b.asks,
               latest_trade := b.latest_trade.map (fun t =>
                 { t with asset := b.asset,
                          sequence_number := b.last_sequence_number }),
               tick_size := b.tick_size,
               timestamp := match b.latest_trade with
                 | some t => t.timestamp
                 | none => b.timestamp,
               last_sequence_number := b.last_sequence_number,
               book_hash := b.book_hash } := by
  have hw1 : BidsWeak b.bids := hs1.imp (fun hlt => le_of_lt hlt)
  have hw2 : AsksWeak b.asks := hs2.imp (fun hlt => le_of_lt hlt)
  have hbids : sortBids (zipLevels (b.bids.map PriceLevel.price)
      (b.bids.map PriceLevel.size)) = b.bids := by
    rw [zipLevels_map, sortBids_eq_of_weak hw1]
  have hasks : sortAsks (zipLevels (b.asks.map PriceLevel.price)
      (b.asks.map PriceLevel.size)) = b.asks := by
    rw [zipLevels_map, sortAsks_eq_of_weak hw2]
  cases hlt : b.latest_trade with
  | none =>
    by_cases ht : b.tick_size = mkRat 1 100
    · simp [getLatestSnapshotFromRow, storeSnapshotRow, OrderBook.applySnap,
        OrderBook.applyTick, OrderBook.applyTrade, OrderBook.empty, hbids, hasks,
        hlt, ht]
    · simp [getLatestSnapshotFromRow, storeSnapshotRow, OrderBook.applySnap,
        OrderBook.applyTick, OrderBook.applyTrade, OrderBook.empty, hbids, hasks,
        hlt, ht]
  | some t =>
    by_cases ht : b.tick_size = mkRat 1 100
    · simp [getLatestSnapshotFromRow, storeSnapshotRow, OrderBook.applySnap,
        OrderBook.applyTick, OrderBook.applyTrade, OrderBook.empty, hbids, hasks,
        hlt, ht, sideOfU8_sideToU8]
    · simp [getLatestSnapshotFromRow, storeSnapshotRow, OrderBook.applySnap,
        OrderBook.applyTick, OrderBook.applyTrade, OrderBook.empty, hbids, hasks,
        hlt, ht, sideOfU8_sideToU8]

/-- C1 (corrected).  Snapshot round-trip for books reachable by folding
events from the empty book: the in-memory repository returns the stored book
unchanged.  The columnar repository re-sorts both sides on read and std::sort
leaves the order of equal-price levels unspecified, so its side of the claim
is stated for streams whose BookSnapshot events carry pairwise-distinct
prices per side (then the reachable book's sides are strictly sorted and
every comparison sort reproduces them exactly): under that restriction the
columnar repository returns a book equal on asset, bids, asks, tick_size,
book_hash and last_sequence_number, but whose reconstructed latest_trade
(when present) carries the book's asset and last_sequence_number in place of
the original trade's, and whose timestamp equals the trade's timestamp rather
than the book's (the trade is re-applied last during reconstruction).  When
the book holds no trade the columnar round-trip is also exact. -/
theorem snapshot_roundtrip_amended (a : MarketAsset) (es : List Ev) :
    (∀ r : InMemoryRepo,
      (r.store_snapshot (foldEvents a es)).get_latest_snapshot
          (foldEvents a es).asset
        = some (foldEvents a es)) ∧
    ((∀ e ∈ es, snapPricesNodup e) →
      ∀ r : ParquetRepo,
      (r.store_snapshot (foldEvents a es)).get_latest_snapshot a
        = some { asset := a,
                 bids := (foldEvents a es).bids,
                 asks := (foldEvents a es).asks,
                 latest_trade := (foldEvents a es).latest_trade.map (fun t =>
                   { t with asset := a,
                            sequence_number := (foldEvents a es).last_sequence_number }),
                 tick_size := (foldEvents a es).tick_size,
                 timestamp := match (foldEvents a es).latest_trade with
                   | some t => t.timestamp
                   | none => (foldEvents a es).timestamp,
                 last_sequence_number := (foldEvents a es).last_sequence_number,
                 book_hash := (foldEvents a es).book_hash }) := by
  have hasset := foldEvents_asset a es
  constructor
  · intro r
    unfold InMemoryRepo.store_snapshot InMemoryRepo.get_latest_snapshot
    exact mapFind?_insert_self _ _ _
  · intro hnd r
    have hsorted := foldl_apply_sorted es hnd (OrderBook.empty a)
      (List.Pairwise.nil) (List.Pairwise.nil)
    unfold ParquetRepo.store_snapshot ParquetRepo.get_latest_snapshot
    rw [show tokenHash16 a.token_id
        = tokenHash16 (foldEvents a es).asset.token_id by rw [hasset]]
    rw [snapFilesSet_find_self]
    have h := roundtrip_row (foldEvents a es) hsorted.1 hsorted.2
    rw [hasset] at h
    exact h

/-- C1 counterexample: the reachable book obtained by a trade (sequence 1,
timestamp 100) followed by a delta (sequence 2, timestamp 200) does not
round-trip through the columnar snapshot store — the reconstructed book's
timestamp reverts to the trade's 100 and the reconstructed trade's sequence
number becomes the book's 2. -/
theorem snapshot_roundtrip_counterexample :
    ((ParquetRepo.init 10).store_snapshot tradeThenDeltaBook).get_latest_snapshot
        sampleAsset
      ≠ some tradeThenDeltaBook ∧
    tradeThenDeltaBook.asset = sampleAsset ∧
    tradeThenDeltaBook.timestamp = 200 ∧
    (((ParquetRepo.init 10).store_snapshot tradeThenDeltaBook).get_latest_snapshot
        sampleAsset).map (fun bk => bk.timestamp) = some 100 ∧
    tradeThenDeltaBook.latest_trade.map (fun t => t.sequence_number) = some 1 ∧
    (((ParquetRepo.init 10).store_snapshot tradeThenDeltaBook).get_latest_snapshot
        sampleAsset).map (fun bk => bk.latest_trade.map (fun t => t.sequence_number))
      = some (some 2) := by
  exact ⟨by decide, by decide, by decide, by decide, by decide, by decide⟩

/-- Witness for the amended C1 at a concrete input: one BookSnapshot event
whose bid prices and ask prices are pairwise distinct.  Both repositories
round-trip the folded book. -/
theorem snapshot_roundtrip_amended_witness :
    (∀ e ∈ [sampleSnapEv], snapPricesNodup e) ∧
    (∀ r : InMemoryRepo,
      (r.store_snapshot (foldEvents sampleAsset [sampleSnapEv])).get_latest_snapshot
          (foldEvents sampleAsset [sampleSnapEv]).asset
        = some (foldEvents sampleAsset [sampleSnapEv])) ∧
    (∀ r : ParquetRepo,
      (r.store_snapshot (foldEvents sampleAsset [sampleSnapEv])).get_latest_snapshot
          sampleAsset
        = some { asset := sampleAsset,
                 bids := (foldEvents sampleAsset [sampleSnapEv]).bids,
                 asks := (foldEvents sampleAsset [sampleSnapEv]).asks,
                 latest_trade :=
                   (foldEvents sampleAsset [sampleSnapEv]).latest_trade.map (fun t =>
                     { t with asset := sampleAsset,
                              sequence_number :=
                                (foldEvents sampleAsset
                                  [sampleSnapEv]).last_sequence_number }),
                 tick_size := (foldEvents sampleAsset [sampleSnapEv]).tick_size,
                 timestamp :=
                   match (foldEvents sampleAsset [sampleSnapEv]).latest_trade with
                   | some t => t.timestamp
                   | none => (foldEvents sampleAsset [sampleSnapEv]).timestamp,
                 last_sequence_number :=
                   (foldEvents sampleAsset [sampleSnapEv]).last_sequence_number,
                 book_hash := (foldEvents sampleAsset [sampleSnapEv]).book_hash }) := by
  have hev : ∀ e ∈ [sampleSnapEv], snapPricesNodup e := by
    intro e he
    rcases List.mem_cons.mp he with h | he
    · subst h
      show ([mkRat 48 100, mkRat 49 100] : List Rat).Nodup ∧
        ([mkRat 52 100] : List Rat).Nodup
      decide
    · exact absurd he (List.not_mem_nil e)
  exact ⟨hev, (snapshot_roundtrip_amended sampleAsset [sampleSnapEv]).1,
    (snapshot_roundtrip_amended sampleAsset [sampleSnapEv]).2 hev⟩

/-- Witness for C10 at a fresh service and two concrete events. -/
theorem failed_append_effects_witness :
    1 ≤ (freshService 5).nextSeq ∧
    ((on_event_throwing (freshService 5) sampleSnapEv).repoEvents
        = (freshService 5).repoEvents ∧
      (on_event_throwing (freshService 5) sampleSnapEv).books = (freshService 5).books ∧
      (on_event_throwing (freshService 5) sampleSnapEv).snapLog
        = (freshService 5).snapLog ∧
      (on_event_throwing (freshService 5) sampleSnapEv).snapshots
        = (freshService 5).snapshots ∧
      eventCount (on_event_throwing (freshService 5) sampleSnapEv)
        = eventCount (freshService 5) + 1 ∧
      (on_event (on_event_throwing (freshService 5) sampleSnapEv)
          (sampleTradeEv 0)).repoEvents
        = (freshService 5).repoEvents
          ++ [setSeq (sampleTradeEv 0) ((freshService 5).nextSeq + 1)] ∧
      (freshService 5).nextSeq < (freshService 5).nextSeq + 1 ∧
      ((∀ q ∈ (freshService 5).repoEvents.map eventSeq, q < (freshService 5).nextSeq) →
        (freshService 5).nextSeq ∉
          ((on_event (on_event_throwing (freshService 5) sampleSnapEv)
            (sampleTradeEv 0)).repoEvents.map eventSeq))) :=
  ⟨by decide,
   failed_append_effects (freshService 5) sampleSnapEv (sampleTradeEv 0) (by decide)⟩

/-! ## Columnar row serialization is lossless -/

theorem zipChanges_map (cs : List PriceLevelDelta) :
    zipChanges (cs.map (·.asset_id)) (cs.map (·.price)) (cs.map (·.new_size))
      (cs.map (fun c => sideToU8 c.side)) (cs.map (·.best_bid)) (cs.map (·.best_ask))
      = cs := by
  induction cs with
  | nil => rfl
  | cons c t ih =>
    simp only [List.map_cons, zipChanges, sideOfU8_sideToU8, ih]

theorem deser_ser (e : Ev) : deserializeRow (serializeRow e) = e := by
  cases e with
  | snap e => simp [serializeRow, deserializeRow, zipLevels_map]
  | delta e => simp [serializeRow, deserializeRow, zipChanges_map]
  | trade e => simp [serializeRow, deserializeRow, sideOfU8_sideToU8]
  | tick e => simp [serializeRow, deserializeRow]

theorem map_deser_ser (es : List Ev) : (es.map serializeRow).map deserializeRow = es := by
  rw [List.map_map]
  have h : ∀ e ∈ es, (deserializeRow ∘ serializeRow) e = id e := fun e _ => deser_ser e
  rw [List.map_congr_left h, List.map_id]

/-! ## Invariant preservation in the columnar write path -/

theorem filesDecode_append (l1 l2 : List EventFile) :
    filesDecode (l1 ++ l2) = filesDecode l1 ++ filesDecode l2 := by
  induction l1 with
  | nil => rfl
  | cons f t ih =>
    simp only [List.cons_append, filesDecode, List.foldr_cons] at *
    rw [ih, List.append_assoc]

theorem filesDecode_flushBuffer (etype : EvType) (buf : List Ev) :
    filesDecode (flushBuffer etype buf) = buf := by
  cases buf with
  | nil => rfl
  | cons e0 rest =>
    simp only [flushBuffer, filesDecode, List.foldr_cons, List.foldr_nil, List.append_nil]
    exact map_deser_ser _

theorem pairwise_seq_le_getLast :
    ∀ (l : List Ev) (hne : l ≠ []), l.Pairwise seqLt →
      ∀ e ∈ l, eventSeq e ≤ eventSeq (l.getLast hne) := by
  intro l
  induction l with
  | nil => intro hne; exact absurd rfl hne
  | cons x t ih =>
    intro hne hpw e he
    cases t with
    | nil =>
      rcases List.mem_singleton.mp he with rfl
      rfl
    | cons y t' =>
      rw [List.getLast_cons (by simp)]
      rcases List.mem_cons.mp he with rfl | he
      · have hmem : (y :: t').getLast (by simp) ∈ y :: t' := List.getLast_mem _
        have := (List.pairwise_cons.mp hpw).1 _ hmem
        exact le_of_lt this
      · exact ih (by simp) (List.pairwise_cons.mp hpw).2 e he

theorem flushBuffer_seqBounded {etype : EvType} {buf : List Ev}
    (hpw : buf.Pairwise seqLt) :
    ∀ f ∈ flushBuffer etype buf, ∀ e ∈ f.rows.map deserializeRow,
      eventSeq e ≤ f.seq_end := by
  cases buf with
  | nil => intro f hf; simp [flushBuffer] at hf
  | cons e0 rest =>
    intro f hf e he
    rcases List.mem_singleton.mp hf with rfl
    simp only [map_deser_ser] at he
    exact pairwise_seq_le_getLast (e0 :: rest) (by simp) hpw e he

theorem flushBuffer_bucketed {etype : EvType} {buf done : List Ev}
    (hsub : buf.Sublist done) (hU : bucketUniform done) :
    ∀ f ∈ flushBuffer etype buf, ∀ e ∈ f.rows.map deserializeRow,
      tokenBucket (eventAsset e).token_id = f.bucket := by
  cases buf with
  | nil => intro f hf; simp [flushBuffer] at hf
  | cons e0 rest =>
    intro f hf e he
    rcases List.mem_singleton.mp hf with rfl
    simp only [map_deser_ser] at he
    exact hU e (hsub.mem he) e0 (hsub.mem (List.mem_cons_self _ _))

theorem flush_InvAux {r : ParquetRepo} {done : List Ev}
    (hP : done.Pairwise seqLt) (hI : InvAux r done) : InvAux r.flush done := by
  obtain ⟨hA, ⟨hB1, hB2, hB3, hB4⟩, hC, hD⟩ := hI
  refine ⟨?_, ⟨List.nil_sublist _, List.nil_sublist _, List.nil_sublist _,
    List.nil_sublist _⟩, ?_, ?_⟩
  · have heq : diskEvents r.flush ++ bufEvents r.flush = diskEvents r ++ bufEvents r := by
      simp [ParquetRepo.flush, diskEvents, bufEvents, filesDecode_append,
        filesDecode_flushBuffer, List.append_assoc]
    rw [heq]
    exact hA
  · intro f hf
    simp only [ParquetRepo.flush, List.mem_append] at hf
    rcases hf with ((((hf | hf) | hf) | hf) | hf)
    · exact hC f hf
    · exact flushBuffer_seqBounded (List.Pairwise.sublist hB1 hP) f hf
    · exact flushBuffer_seqBounded (List.Pairwise.sublist hB2 hP) f hf
    · exact flushBuffer_seqBounded (List.Pairwise.sublist hB3 hP) f hf
    · exact flushBuffer_seqBounded (List.Pairwise.sublist hB4 hP) f hf
  · intro hU f hf
    simp only [ParquetRepo.flush, List.mem_append] at hf
    rcases hf with ((((hf | hf) | hf) | hf) | hf)
    · exact hD hU f hf
    · exact flushBuffer_bucketed hB1 hU f hf
    · exact flushBuffer_bucketed hB2 hU f hf
    · exact flushBuffer_bucketed hB3 hU f hf
    · exact flushBuffer_bucketed hB4 hU f hf

theorem perm_single_to_back (e : Ev) (v : List Ev) :
    List.Perm ([e] ++ v) (v ++ [e]) :=
  List.perm_append_comm

theorem bucketUniform_of_append {done : List Ev} {e : Ev}
    (hU : bucketUniform (done ++ [e])) : bucketUniform done := by
  intro x hx y hy
  exact hU x (List.mem_append_left _ hx) y (List.mem_append_left _ hy)

theorem maybe_flush_InvAux {r : ParquetRepo} {done : List Ev}
    (hP : done.Pairwise seqLt) (hI : InvAux r done) : InvAux r.maybe_flush done := by
  unfold ParquetRepo.maybe_flush
  split
  · exact flush_InvAux hP hI
  · exact hI

theorem perm_pull_back (e : Ev) (u v : List Ev) :
    List.Perm (u ++ ([e] ++ v)) (u ++ (v ++ [e])) :=
  List.Perm.append_left u (perm_single_to_back e v)

theorem append_event_InvAux {r : ParquetRepo} {done : List Ev} {e : Ev}
    (hP : (done ++ [e]).Pairwise seqLt) (hI : InvAux r done) :
    InvAux (r.append_event e) (done ++ [e]) := by
  obtain ⟨hA, ⟨hB1, hB2, hB3, hB4⟩, hC, hD⟩ := hI
  have hD' : bucketUniform (done ++ [e]) → ParquetRepo.filesBucketed r :=
    fun hU => hD (bucketUniform_of_append hU)
  have hAext : ∀ bufs : List Ev, List.Perm bufs (bufEvents r ++ [e]) →
      List.Perm (diskEvents r ++ bufs) (done ++ [e]) := by
    intro bufs hperm
    refine (List.Perm.append_left _ hperm).trans ?_
    rw [← List.append_assoc]
    exact List.Perm.append_right _ hA
  have hsubKeep : ∀ buf : List Ev, buf.Sublist done → buf.Sublist (done ++ [e]) :=
    fun buf h => h.trans (List.sublist_append_left done [e])
  have hsubExt : ∀ buf : List Ev, buf.Sublist done →
      (buf ++ [e]).Sublist (done ++ [e]) :=
    fun buf h => h.append (List.Sublist.refl [e])
  have hmid : InvAux (match e with
      | .snap _ => { r with snap_buf := r.snap_buf ++ [e] }
      | .delta _ => { r with delta_buf := r.delta_buf ++ [e] }
      | .trade _ => { r with trade_buf := r.trade_buf ++ [e] }
      | .tick _ => { r with tick_buf := r.tick_buf ++ [e] }) (done ++ [e]) := by
    cases e with
    | snap e0 =>
      refine ⟨hAext _ ?_, ⟨hsubExt _ hB1, hsubKeep _ hB2, hsubKeep _ hB3,
        hsubKeep _ hB4⟩, hC, hD'⟩
      simp only [bufEvents, List.append_assoc]
      refine (perm_pull_back _ _ _).trans ?_
      simp only [List.append_assoc]
      exact List.Perm.refl _
    | delta e0 =>
      refine ⟨hAext _ ?_, ⟨hsubKeep _ hB1, hsubExt _ hB2, hsubKeep _ hB3,
        hsubKeep _ hB4⟩, hC, hD'⟩
      simp only [bufEvents, List.append_assoc]
      refine List.Perm.append_left _ ((perm_pull_back _ _ _).trans ?_)
      simp only [List.append_assoc]
      exact List.Perm.refl _
    | trade e0 =>
      refine ⟨hAext _ ?_, ⟨hsubKeep _ hB1, hsubKeep _ hB2, hsubExt _ hB3,
        hsubKeep _ hB4⟩, hC, hD'⟩
      simp only [bufEvents, List.append_assoc]
      exact List.Perm.append_left _ (List.Perm.append_left _
        (List.Perm.append_left _ (perm_single_to_back _ _)))
    | tick e0 =>
      refine ⟨hAext _ ?_, ⟨hsubKeep _ hB1, hsubKeep _ hB2, hsubKeep _ hB3,
        hsubExt _ hB4⟩, hC, hD'⟩
      simp only [bufEvents, List.append_assoc]
      exact List.Perm.refl _
  unfold ParquetRepo.append_event
  cases e with
  | snap e0 => exact maybe_flush_InvAux hP hmid
  | delta e0 => exact maybe_flush_InvAux hP hmid
  | trade e0 => exact maybe_flush_InvAux hP hmid
  | tick e0 => exact maybe_flush_InvAux hP hmid

theorem runRepo_InvAux :
    ∀ (ops : List RepoOp) (r : ParquetRepo) (done : List Ev),
      (done ++ appendedEvents ops).Pairwise seqLt →
      InvAux r done →
      InvAux (runRepo r ops) (done ++ appendedEvents ops) := by
  intro ops
  induction ops with
  | nil =>
    intro r done h hI
    simpa [appendedEvents, runRepo] using hI
  | cons op ops ih =>
    intro r done h hI
    cases op with
    | flush =>
      have hP : done.Pairwise seqLt :=
        List.Pairwise.sublist (List.sublist_append_left done _) h
      exact ih r.flush done h (flush_InvAux hP hI)
    | append e =>
      have hassoc : done ++ appendedEvents (RepoOp.append e :: ops)
          = (done ++ [e]) ++ appendedEvents ops := by
        simp [appendedEvents]
      rw [hassoc] at h ⊢
      have hP : (done ++ [e]).Pairwise seqLt :=
        List.Pairwise.sublist (List.sublist_append_left _ _) h
      exact ih (r.append_event e) (done ++ [e]) h (append_event_InvAux hP hI)

theorem runRepo_invariants (wbs : Nat) (ops : List RepoOp)
    (h1 : (appendedEvents ops).Pairwise seqLt) :
    InvAux (runRepo (ParquetRepo.init wbs) ops) (appendedEvents ops) := by
  have hinit : InvAux (ParquetRepo.init wbs) [] := by
    refine ⟨List.Perm.refl _, ⟨List.nil_sublist _, List.nil_sublist _,
      List.nil_sublist _, List.nil_sublist _⟩, ?_, ?_⟩
    · intro f hf; exact absurd hf (List.not_mem_nil f)
    · intro _ f hf; exact absurd hf (List.not_mem_nil f)
  have h := runRepo_InvAux ops (ParquetRepo.init wbs) [] (by simpa using h1) hinit
  simpa using h

/-! ## The read path (C7, C8) -/

theorem readShard_fullscan_of_bounded {t : EvType} {a : MarketAsset} {ms : Nat} :
    ∀ fs : List EventFile,
      (∀ f ∈ fs, ∀ e ∈ f.rows.map deserializeRow, eventSeq e ≤ f.seq_end) →
      readShard fs t a ms = readShardFullScan fs t a ms := by
  intro fs
  induction fs with
  | nil => intro _; rfl
  | cons f fs ih =>
    intro hC
    have hrec := ih (fun f' hf' => hC f' (List.mem_cons_of_mem _ hf'))
    unfold readShard readShardFullScan
    unfold readShard readShardFullScan at hrec
    by_cases hp : (decide (f.etype = t) && decide (f.bucket = tokenBucket a.token_id)) = true
    · simp only [List.filter_cons]
      rw [if_pos hp, List.foldr_cons, List.foldr_cons, hrec]
      congr 1
      by_cases hprune : f.seq_end ≤ ms
      · rw [if_pos hprune]
        symm
        rw [List.filter_eq_nil_iff]
        intro e he
        simp only [rowKeep, Bool.and_eq_true, decide_eq_true_eq, not_and]
        intro hgt
        have := hC f (List.mem_cons_self _ _) e he
        omega
      · rw [if_neg hprune]
    · simp only [List.filter_cons]
      rw [if_neg hp]
      exact hrec

theorem perm_pull_front (c u v : List Ev) :
    List.Perm (u ++ (c ++ v)) (c ++ (u ++ v)) := by
  rw [← List.append_assoc, ← List.append_assoc]
  exact List.Perm.append_right v List.perm_append_comm

theorem shards_perm_bucketFold (a : MarketAsset) (ms : Nat) :
    ∀ fs : List EventFile,
      List.Perm
        (readShard fs .book_snapshot a ms ++ readShard fs .book_delta a ms
          ++ readShard fs .trade_event a ms ++ readShard fs .tick_size_change a ms)
        (bucketFold fs a ms) := by
  intro fs
  induction fs with
  | nil => exact List.Perm.refl _
  | cons f fs ih =>
    have hsh : ∀ t : EvType, readShard (f :: fs) t a ms
        = (if (decide (f.etype = t) && decide (f.bucket = tokenBucket a.token_id)) = true
           then (if f.seq_end ≤ ms then []
                 else (f.rows.map deserializeRow).filter (rowKeep a ms)) else [])
          ++ readShard fs t a ms := by
      intro t
      unfold readShard
      simp only [List.filter_cons]
      by_cases hp : (decide (f.etype = t) && decide (f.bucket = tokenBucket a.token_id)) = true
      · rw [if_pos hp, List.foldr_cons, if_pos hp]
      · rw [if_neg hp, if_neg hp, List.nil_append]
    rw [hsh .book_snapshot, hsh .book_delta, hsh .trade_event, hsh .tick_size_change,
      show bucketFold (f :: fs) a ms = bucketContrib a ms f ++ bucketFold fs a ms
        from rfl]
    have ihn := ih
    simp only [List.append_assoc] at ihn
    by_cases hb : f.bucket = tokenBucket a.token_id
    · have hCC : bucketContrib a ms f
          = if f.seq_end ≤ ms then []
            else (f.rows.map deserializeRow).filter (rowKeep a ms) := by
        unfold bucketContrib
        rw [if_pos hb]
      cases hf : f.etype with
      | book_snapshot =>
        have hc1 : (decide (EvType.book_snapshot = EvType.book_snapshot)
            && decide (f.bucket = tokenBucket a.token_id)) = true := by simp [hb]
        have hc2 : ¬ ((decide (EvType.book_snapshot = EvType.book_delta)
            && decide (f.bucket = tokenBucket a.token_id)) = true) := by simp
        have hc3 : ¬ ((decide (EvType.book_snapshot = EvType.trade_event)
            && decide (f.bucket = tokenBucket a.token_id)) = true) := by simp
        have hc4 : ¬ ((decide (EvType.book_snapshot = EvType.tick_size_change)
            && decide (f.bucket = tokenBucket a.token_id)) = true) := by simp
        rw [if_pos hc1, if_neg hc2, if_neg hc3, if_neg hc4, hCC]
        simp only [List.nil_append, List.append_assoc]
        exact List.Perm.append_left _ ihn
      | book_delta =>
        have hc1 : ¬ ((decide (EvType.book_delta = EvType.book_snapshot)
            && decide (f.bucket = tokenBucket a.token_id)) = true) := by simp
        have hc2 : (decide (EvType.book_delta = EvType.book_delta)
            && decide (f.bucket = tokenBucket a.token_id)) = true := by simp [hb]
        have hc3 : ¬ ((decide (EvType.book_delta = EvType.trade_event)
            && decide (f.bucket = tokenBucket a.token_id)) = true) := by simp
        have hc4 : ¬ ((decide (EvType.book_delta = EvType.tick_size_change)
            && decide (f.bucket = tokenBucket a.token_id)) = true) := by simp
        rw [if_neg hc1, if_pos hc2, if_neg hc3, if_neg hc4, hCC]
        simp only [List.nil_append, List.append_assoc]
        exact (perm_pull_front _ _ _).trans (List.Perm.append_left _ ihn)
      | trade_event =>
        have hc1 : ¬ ((decide (EvType.trade_event = EvType.book_snapshot)
            && decide (f.bucket = tokenBucket a.token_id)) = true) := by simp
        have hc2 : ¬ ((decide (EvType.trade_event = EvType.book_delta)
            && decide (f.bucket = tokenBucket a.token_id)) = true) := by simp
        have hc3 : (decide (EvType.trade_event = EvType.trade_event)
            && decide (f.bucket = tokenBucket a.token_id)) = true := by simp [hb]
        have hc4 : ¬ ((decide (EvType.trade_event = EvType.tick_size_change)
            && decide (f.bucket = tokenBucket a.token_id)) = true) := by simp
        rw [if_neg hc1, if_neg hc2, if_pos hc3, if_neg hc4, hCC]
        simp only [List.nil_append, List.append_assoc]
        refine (List.Perm.append_left _ (perm_pull_front _ _ _)).trans ?_
        exact (perm_pull_front _ _ _).trans (List.Perm.append_left _ ihn)
      | tick_size_change =>
        have hc1 : ¬ ((decide (EvType.tick_size_change = EvType.book_snapshot)
            && decide (f.bucket = tokenBucket a.token_id)) = true) := by simp
        have hc2 : ¬ ((decide (EvType.tick_size_change = EvType.book_delta)
            && decide (f.bucket = tokenBucket a.token_id)) = true) := by simp
        have hc3 : ¬ ((decide (EvType.tick_size_change = EvType.trade_event)
            && decide (f.bucket = tokenBucket a.token_id)) = true) := by simp
        have hc4 : (decide (EvType.tick_size_change = EvType.tick_size_change)
            && decide (f.bucket = tokenBucket a.token_id)) = true := by simp [hb]
        rw [if_neg hc1, if_neg hc2, if_neg hc3, if_pos hc4, hCC]
        simp only [List.nil_append, List.append_assoc]
        refine (List.Perm.append_left _ (List.Perm.append_left _
          (perm_pull_front _ _ _))).trans ?_
        refine (List.Perm.append_left _ (perm_pull_front _ _ _)).trans ?_
        exact (perm_pull_front _ _ _).trans (List.Perm.append_left _ ihn)
    · have hc : ∀ t : EvType, ¬ ((decide (f.etype = t)
          && decide (f.bucket = tokenBucket a.token_id)) = true) := by
        intro t
        simp [hb]
      have hCC : bucketContrib a ms f = [] := by
        unfold bucketContrib
        rw [if_neg hb]
      rw [if_neg (hc .book_snapshot), if_neg (hc .book_delta), if_neg (hc .trade_event),
        if_neg (hc .tick_size_change), hCC]
      simp only [List.nil_append, List.append_assoc]
      exact ihn

theorem bucketFold_eq_filter (a : MarketAsset) (ms : Nat) :
    ∀ fs : List EventFile,
      (∀ f ∈ fs, ∀ e ∈ f.rows.map deserializeRow, eventSeq e ≤ f.seq_end) →
      (∀ f ∈ fs, ∀ e ∈ f.rows.map deserializeRow,
        tokenBucket (eventAsset e).token_id = f.bucket) →
      bucketFold fs a ms = (filesDecode fs).filter (rowKeep a ms) := by
  intro fs
  induction fs with
  | nil => intro _ _; rfl
  | cons f fs ih =>
    intro hC hD
    rw [show bucketFold (f :: fs) a ms = bucketContrib a ms f ++ bucketFold fs a ms
        from rfl,
      show filesDecode (f :: fs) = f.rows.map deserializeRow ++ filesDecode fs from rfl,
      List.filter_append,
      ih (fun f' hf' => hC f' (List.mem_cons_of_mem _ hf'))
         (fun f' hf' => hD f' (List.mem_cons_of_mem _ hf'))]
    congr 1
    unfold bucketContrib
    by_cases hb : f.bucket = tokenBucket a.token_id
    · rw [if_pos hb]
      by_cases hprune : f.seq_end ≤ ms
      · rw [if_pos hprune]
        symm
        rw [List.filter_eq_nil_iff]
        intro e he
        simp only [rowKeep, Bool.and_eq_true, decide_eq_true_eq, not_and]
        intro hgt
        have := hC f (List.mem_cons_self _ _) e he
        omega
      · rw [if_neg hprune]
    · rw [if_neg hb]
      symm
      rw [List.filter_eq_nil_iff]
      intro e he
      simp only [rowKeep, Bool.and_eq_true, decide_eq_true_eq, not_and]
      intro _ hass
      apply hb
      have hbe := hD f (List.mem_cons_self _ _) e he
      rw [hass] at hbe
      exact hbe.symm

theorem insertionSort_eq_of_perm_sorted {X target : List Ev}
    (hp : List.Perm X target) (hs : target.Pairwise seqLt) :
    X.insertionSort seqLe = target := by
  have h1 : List.Perm (X.insertionSort seqLe) target :=
    (List.perm_insertionSort seqLe X).trans hp
  have h2 : List.Sorted seqLe (X.insertionSort seqLe) :=
    List.sorted_insertionSort seqLe X
  have htarget_nodup : (target.map eventSeq).Nodup := by
    have hm : (target.map eventSeq).Pairwise (fun x y => x < y) :=
      List.pairwise_map.mpr hs
    exact hm.imp (fun hlt => ne_of_lt hlt)
  have hnod : ((X.insertionSort seqLe).map eventSeq).Nodup :=
    ((h1.map eventSeq).nodup_iff).mpr htarget_nodup
  have hne : (X.insertionSort seqLe).Pairwise (fun x y => eventSeq x ≠ eventSeq y) :=
    List.pairwise_map.mp hnod
  have h3 : (X.insertionSort seqLe).Pairwise seqLt :=
    (h2.and hne).imp (fun hp' => lt_of_le_of_ne hp'.1 hp'.2)
  exact List.eq_of_perm_of_sorted h1 h3 hs

theorem inMemory_foldl_events (es : List Ev) :
    ∀ r : InMemoryRepo, (es.foldl InMemoryRepo.append_event r).events = r.events ++ es := by
  induction es with
  | nil => intro r; simp
  | cons e es ih =>
    intro r
    rw [List.foldl_cons, ih]
    simp [InMemoryRepo.append_event]

/-- C7 (corrected).  get_events_since contract restricted to appends in
strictly ascending sequence order whose events share one token bucket (first
8 characters of the token id): then the columnar repository returns exactly
the appended events for the asset with strictly larger sequence — flushed
files and unflushed buffers merged — sorted ascending, and the in-memory
repository returns the same list (its append order, which under the
hypothesis is sequence-sorted).  Without ascending appends the in-memory
result is unsorted (see counterexample), and a flush batch headed by an
event of a different token bucket files events where the queried bucket's
listing cannot see them. -/
theorem get_events_since_contract (wbs : Nat) (ops : List RepoOp) (a : MarketAsset)
    (s : Nat) (h1 : (appendedEvents ops).Pairwise seqLt)
    (h2 : bucketUniform (appendedEvents ops)) :
    (runRepo (ParquetRepo.init wbs) ops).get_events_since a s
      = (appendedEvents ops).filter (rowKeep a s) ∧
    ((appendedEvents ops).foldl InMemoryRepo.append_event ⟨[], []⟩).get_events_since a s
      = (appendedEvents ops).filter (rowKeep a s) ∧
    ((appendedEvents ops).filter (rowKeep a s)).Pairwise seqLt := by
  obtain ⟨hA, _, hC, hD⟩ := runRepo_invariants wbs ops h1
  refine ⟨?_, ?_, h1.filter _⟩
  · have hdisk := shards_perm_bucketFold a s (runRepo (ParquetRepo.init wbs) ops).files
    rw [bucketFold_eq_filter a s _ hC (hD h2)] at hdisk
    unfold ParquetRepo.get_events_since
    apply insertionSort_eq_of_perm_sorted
    · refine (hdisk.append (List.Perm.refl _)).trans ?_
      rw [show ((runRepo (ParquetRepo.init wbs) ops).snap_buf
            ++ (runRepo (ParquetRepo.init wbs) ops).delta_buf
            ++ (runRepo (ParquetRepo.init wbs) ops).trade_buf
            ++ (runRepo (ParquetRepo.init wbs) ops).tick_buf)
          = bufEvents (runRepo (ParquetRepo.init wbs) ops) from rfl,
        show filesDecode (runRepo (ParquetRepo.init wbs) ops).files
          = diskEvents (runRepo (ParquetRepo.init wbs) ops) from rfl,
        ← List.filter_append]
      exact hA.filter _
    · exact h1.filter _
  · rw [show ((appendedEvents ops).foldl InMemoryRepo.append_event
        ⟨[], []⟩).get_events_since a s
      = ((appendedEvents ops).foldl InMemoryRepo.append_event ⟨[], []⟩).events.filter
          (fun e => decide (eventAsset e = a) && decide (eventSeq e > s)) from rfl,
      inMemory_foldl_events]
    simp only [List.nil_append]
    exact List.filter_congr (fun e _ => Bool.and_comm _ _)

/-- C7 counterexample: the in-memory repository returns events in append
order, so appending sequences 2 then 1 makes get_events_since return them
unsorted, against the claimed ascending order. -/
theorem get_events_since_counterexample :
    ((((⟨[], []⟩ : InMemoryRepo).append_event (sampleTradeEv 2)).append_event
        (sampleTradeEv 1)).get_events_since sampleAsset 0).map eventSeq = [2, 1] ∧
    ¬ (((((⟨[], []⟩ : InMemoryRepo).append_event (sampleTradeEv 2)).append_event
        (sampleTradeEv 1)).get_events_since sampleAsset 0).Pairwise seqLe) :=
  ⟨by decide, by decide⟩

/-- Witness for the amended C7: six same-asset appends with sequences 1..6
against write_buffer_size 3, queried after sequence 3. -/
theorem get_events_since_contract_witness :
    (appendedEvents sixAppendOps).Pairwise seqLt ∧
    bucketUniform (appendedEvents sixAppendOps) ∧
    ((runRepo (ParquetRepo.init 3) sixAppendOps).get_events_since sampleAsset 3
      = (appendedEvents sixAppendOps).filter (rowKeep sampleAsset 3) ∧
    ((appendedEvents sixAppendOps).foldl InMemoryRepo.append_event
        ⟨[], []⟩).get_events_since sampleAsset 3
      = (appendedEvents sixAppendOps).filter (rowKeep sampleAsset 3) ∧
    ((appendedEvents sixAppendOps).filter (rowKeep sampleAsset 3)).Pairwise seqLt) :=
  ⟨by decide, by decide,
   get_events_since_contract 3 sixAppendOps sampleAsset 3 (by decide) (by decide)⟩

/-- C8.  Skip-scan equivalence: under strictly ascending appends every
file's rows are bounded by its filename-encoded seq_end, so the pruned read
equals the read that row-filters every listed file. -/
theorem skip_scan_equivalence (wbs : Nat) (ops : List RepoOp) (a : MarketAsset)
    (s : Nat) (h1 : (appendedEvents ops).Pairwise seqLt) :
    (runRepo (ParquetRepo.init wbs) ops).get_events_since a s
      = (runRepo (ParquetRepo.init wbs) ops).get_events_since_full_scan a s := by
  obtain ⟨_, _, hC, _⟩ := runRepo_invariants wbs ops h1
  unfold ParquetRepo.get_events_since ParquetRepo.get_events_since_full_scan
  rw [readShard_fullscan_of_bounded _ hC, readShard_fullscan_of_bounded _ hC,
    readShard_fullscan_of_bounded _ hC, readShard_fullscan_of_bounded _ hC]

/-- Witness for C8, realizing the spec's concrete scenario: sequences 1,2,3
flushed into one file and 4,5,6 into another; querying after 3 equals the
full scan, returns exactly [4,5,6], and opens only the second file (the
first is pruned by its filename seq_end). -/
theorem skip_scan_equivalence_witness :
    (appendedEvents sixAppendOps).Pairwise seqLt ∧
    (runRepo (ParquetRepo.init 3) sixAppendOps).get_events_since sampleAsset 3
      = (runRepo (ParquetRepo.init 3) sixAppendOps).get_events_since_full_scan
          sampleAsset 3 ∧
    ((runRepo (ParquetRepo.init 3) sixAppendOps).get_events_since sampleAsset 3).map
        eventSeq = [4, 5, 6] ∧
    (runRepo (ParquetRepo.init 3) sixAppendOps).files.map
        (fun f => (f.seq_start, f.seq_end)) = [(1, 3), (4, 6)] ∧
    ((runRepo (ParquetRepo.init 3) sixAppendOps).openedFiles sampleAsset 3).map
        (fun f => f.seq_start) = [4] :=
  ⟨by decide,
   skip_scan_equivalence 3 sixAppendOps sampleAsset 3 (by decide),
   by decide, by decide, by decide⟩

end MDE
